import Mathlib

/-!
Verification of the dusk-network/merkle sparse Merkle tree library.

The development shallowly embeds the core of the crate:
* the `Aggregate` contract (`src/dusk-merkle/src/lib.rs`),
* the sparse `Node` with its lazily memoized item cache
  (`src/dusk-merkle/src/node.rs`),
* the `Tree` container (`src/src/tree.rs`),
* the `Opening` proof object with verification and byte serialization
  (`src/src/opening.rs`),
* the predicate-pruned `Walk` iterator (`src/dusk-merkle/src/walk.rs`).

Rust `u64`/`usize` values are modelled as `Nat` (the positions handled by the
crate are bounded by `A ^ H`, far from overflow for the instances considered;
the one place where truncation matters — the `as u32` cast in
`Opening::to_var_bytes` — is modelled with an explicit `% 2 ^ 32`).
A Rust panic (out-of-bounds indexing, `expect`, `unwrap`) is modelled by an
`Option` result, `none` meaning the operation panics.

Recursive node procedures in the source recurse on `height`, stopping at the
fixed tree height `H`; the embedding indexes every node procedure by the
number `lvl = H - height` of levels below the node, which is the quantity the
source recursion actually decreases (`child_cap = A ^ (H - height - 1)`
becomes `A ^ (lvl - 1)`).
-/

namespace DuskMerkle

/-- The aggregation contract (`trait Aggregate<const A: usize>`): an empty
subtree sentinel and a pure function combining the `A` child items of a node
(leftmost first).  `aggregate` is given the list of the `A` item values. -/
structure Aggregate (T : Type) (A : Nat) where
  emptySubtree : T
  aggregate : List T → T

/-- `struct Node<T, H, A>`: a lazily memoized cached item
(`item: RefCell<Option<T>>`) and `A` optional child slots. -/
inductive Node (T : Type) : Type where
  | mk (item : Option T) (children : List (Option (Node T))) : Node T

namespace Node

/-- The cached item of a node (`none` = the cache is stale/unset). -/
def itemCache {T : Type} : Node T → Option T
  | .mk i _ => i

/-- The child slots of a node. -/
def children {T : Type} : Node T → List (Option (Node T))
  | .mk _ cs => cs

@[simp] theorem itemCache_mk {T : Type} (i : Option T) (cs) :
    itemCache (.mk i cs) = i := rfl

@[simp] theorem children_mk {T : Type} (i : Option T) (cs) :
    children (.mk i cs) = cs := rfl

/-- `Node::new`: a childless node with an unset cache. -/
def new (T : Type) (A : Nat) : Node T := .mk none (List.replicate A none)

/-- `capacity(arity, depth) = arity.pow(depth)`. -/
def capacity (arity : Nat) (depth : Nat) : Nat := arity ^ depth

/-- `Node::child_location`, for a node with `lvl + 1` levels below it
(`child_cap = A ^ lvl`): the child slot index and the position within the
child's subtree. -/
def childLocation (A : Nat) (lvl : Nat) (position : Nat) : Nat × Nat :=
  (position / capacity A lvl, position % capacity A lvl)

/-- The value returned by `Node::item` (pure part): the cached item if set,
otherwise the aggregate over the children's items with `EMPTY_SUBTREE`
substituted for absent children — except that a node with no present child
returns `EMPTY_SUBTREE` itself.  `lvl` is the number of levels below the node
(the source recursion is structural on the children; a node at the bottom has
all child slots absent, so the `lvl = 0` stale case returns `EMPTY_SUBTREE`
exactly as the source does). -/
def itemVal {T : Type} {A : Nat} (agg : Aggregate T A) : Nat → Node T → T
  | _, .mk (some v) _ => v
  | 0, .mk none _ => agg.emptySubtree
  | lvl + 1, .mk none cs =>
      if cs.all Option.isNone then agg.emptySubtree
      else agg.aggregate (cs.map fun c =>
        match c with
        | none => agg.emptySubtree
        | some m => itemVal agg lvl m)

/-- The node state after a `Node::item` call: every cache along the computed
subtree is filled (`RefCell` interior mutability).  The filled value is
exactly `itemVal` of the original node. -/
def fillItem {T : Type} {A : Nat} (agg : Aggregate T A) : Nat → Node T → Node T
  | _, n@(.mk (some _) _) => n
  | 0, .mk none cs => .mk (some agg.emptySubtree) cs
  | lvl + 1, .mk none cs =>
      .mk (some (itemVal agg (lvl + 1) (.mk none cs)))
        (cs.map (Option.map (fillItem agg lvl)))

/-- `Node::insert`: at the bottom (`height == H`, i.e. `lvl = 0`) overwrite
the stored item; otherwise clear the cache, allocate the child slot on the
path if absent, and recurse.  `none` models the `children[child_index]` panic
when the index is out of bounds. -/
def insert {T : Type} (A : Nat) (x : T) : Nat → Nat → Node T → Option (Node T)
  | 0, _, n => some (.mk (some x) n.children)
  | lvl + 1, pos, n => do
      let (ci, cpos) := childLocation A lvl pos
      let slot ← n.children.get? ci
      let c := slot.getD (new T A)
      let c' ← insert A x lvl cpos c
      some (.mk none (n.children.set ci (some c')))

/-- `Node::remove`: at the bottom take the stored item (panicking if unset);
otherwise clear the cache, recurse into the child on the path (panicking if
the slot is absent), deallocate the child when it reports no remaining
children, and report whether this node still has any present child. -/
def remove {T : Type} (A : Nat) : Nat → Nat → Node T → Option (T × Bool × Node T)
  | 0, _, n => do
      let v ← n.itemCache
      some (v, false, .mk none n.children)
  | lvl + 1, pos, n => do
      let (ci, cpos) := childLocation A lvl pos
      let slot ← n.children.get? ci
      let c ← slot
      let (v, childHas, c') ← remove A lvl cpos c
      let cs := n.children.set ci (if childHas then some c' else none)
      let has := cs.any Option.isSome
      some (v, has, .mk none cs)

/-- The stored leaf value at a position of the sparse subtree, if the path to
it is materialized (a specification-side observer used to state round-trip
properties). -/
def lookup {T : Type} (A : Nat) : Nat → Nat → Node T → Option T
  | 0, _, n => n.itemCache
  | lvl + 1, pos, n => do
      let (ci, cpos) := childLocation A lvl pos
      let slot ← n.children.get? ci
      let c ← slot
      lookup A lvl cpos c

/-- The positions (relative to this subtree) of all materialized leaves, in
ascending order. -/
def leafPositions {T : Type} (A : Nat) : Nat → Node T → List Nat
  | 0, _ => [0]
  | lvl + 1, n =>
      (n.children.enum.map fun ic =>
        match ic.2 with
        | none => []
        | some m => (leafPositions A lvl m).map fun q => ic.1 * capacity A lvl + q).flatten

/-- The naive recursive aggregation the code's memoization is meant to cache:
a leaf's item is its stored value, an internal node with at least one present
child aggregates its children's items (`EMPTY_SUBTREE` for absent slots), and
an internal node with no present child has item `EMPTY_SUBTREE`. -/
def specItem {T : Type} {A : Nat} (agg : Aggregate T A) : Nat → Node T → T
  | 0, n => n.itemCache.getD agg.emptySubtree
  | lvl + 1, n =>
      if n.children.all Option.isNone then agg.emptySubtree
      else agg.aggregate (n.children.map fun c =>
        match c with
        | none => agg.emptySubtree
        | some m => specItem agg lvl m)

/-- The naive recursive aggregation exactly as the specification words it:
an internal node's item is always the aggregate over its `A` children's items
with `EMPTY_SUBTREE` substituted for every absent child (no special case for
a node with no present children). -/
def specItemClaim {T : Type} {A : Nat} (agg : Aggregate T A) : Nat → Node T → T
  | 0, n => n.itemCache.getD agg.emptySubtree
  | lvl + 1, n =>
      agg.aggregate (n.children.map fun c =>
        match c with
        | none => agg.emptySubtree
        | some m => specItemClaim agg lvl m)

end Node

/-- `struct Tree<T, H, A>`: the root node and the ordered set of occupied
leaf positions (`BTreeSet<u64>`). -/
structure Tree (T : Type) where
  root : Node T
  positions : Finset Nat

namespace Tree

/-- `Tree::new`: an empty tree. -/
def new (T : Type) (A : Nat) : Tree T := ⟨Node.new T A, ∅⟩

/-- `Tree::insert` (for a tree of height `H`): delegate to
`root.insert(0, position, item)` then add the position to the set.  `none`
models the panic on `position >= capacity`. -/
def insert {T : Type} (H A : Nat) (position : Nat) (x : T) (t : Tree T) :
    Option (Tree T) := do
  let r ← Node.insert A x H position t.root
  some ⟨r, Insert.insert position t.positions⟩

/-- `Tree::remove`: `None` (no panic, state unchanged) when the position is
not occupied; otherwise delegate to `root.remove(0, position)` and erase the
position from the set.  The outer `Option` models a panic, the inner one the
"no value" result. -/
def remove {T : Type} (H A : Nat) (position : Nat) (t : Tree T) :
    Option (Option T × Tree T) :=
  if position ∈ t.positions then do
    let (v, _, r) ← Node.remove A H position t.root
    some (some v, ⟨r, t.positions.erase position⟩)
  else some (none, t)

/-- `Tree::root` (pure value part): the memoized aggregate of the whole
tree. -/
def rootItem {T : Type} {A : Nat} (agg : Aggregate T A) (H : Nat) (t : Tree T) : T :=
  Node.itemVal agg H t.root

/-- The tree state after a `Tree::root` call: the caches along the stale part
are filled in place. -/
def readRoot {T : Type} {A : Nat} (agg : Aggregate T A) (H : Nat) (t : Tree T) : Tree T :=
  ⟨Node.fillItem agg H t.root, t.positions⟩

/-- `Tree::contains`. -/
def contains {T : Type} (position : Nat) (t : Tree T) : Bool :=
  position ∈ t.positions

/-- `Tree::len`. -/
def len {T : Type} (t : Tree T) : Nat := t.positions.card

/-- `Tree::capacity` `= A ^ H`. -/
def cap (H A : Nat) : Nat := Node.capacity A H

/-- `Tree::smallest_subtree`: starting at the root with `height = H`, return
`(None, 0)` when the current node has no present child; descend when it has
exactly one present child and `height > 1`; otherwise return the current
node's item and the current height. -/
def smallestSubtree {T : Type} {A : Nat} (agg : Aggregate T A) :
    Nat → Node T → Option T × Nat
  | height, n =>
    match n.children.filterMap id with
    | [] => (none, 0)
    | [c] =>
        if h : 1 < height then smallestSubtree agg (height - 1) c
        else (some (Node.itemVal agg height n), height)
    | _ :: _ :: _ => (some (Node.itemVal agg height n), height)
  termination_by height _ => height
  decreasing_by omega

/-- `Tree::smallest_subtree` as the specification describes it: inspect the
number of present children; zero present children gives `(None, 0)`; exactly
one present child with the bottom not reached (`height > 1`) descends into
that child decrementing the height; otherwise (two or more present children,
or the bottom reached) the current node's item and the current height are
returned. -/
def smallestSubtreeSpec {T : Type} {A : Nat} (agg : Aggregate T A) :
    Nat → Node T → Option T × Nat
  | height, n =>
    let present := n.children.filterMap id
    if present.length = 0 then (none, 0)
    else if h : present.length = 1 ∧ 1 < height then
      match present.head? with
      | some c => smallestSubtreeSpec agg (height - 1) c
      | none => (none, 0)
    else (some (Node.itemVal agg height n), height)
  termination_by height _ => height
  decreasing_by omega

end Tree

/-- `struct Opening<T, H, A>`: the captured root, the `H × A` sibling matrix
(`branch`, height order from the root), and the `H` chosen child indices. -/
structure Opening (T : Type) where
  root : T
  branch : List (List T)
  positions : List Nat
  deriving DecidableEq

/-- `fill_opening`: descend the tree along the position exactly as `insert`
does (panicking — `none` — when the child on the path is absent), and record
at each height the full row of the `A` sibling items (present children
contribute `item()`, absent slots keep the `EMPTY_SUBTREE` the branch was
initialized with) together with the chosen child index.  The rows are
returned in height order, root level first, exactly as the source writes
`branch[height]` and `positions[height]`. -/
def fillOpening {T : Type} {A : Nat} (agg : Aggregate T A) :
    Nat → Nat → Node T → Option (List (List T × Nat))
  | 0, _, _ => some []
  | lvl + 1, pos, n => do
      let (ci, cpos) := Node.childLocation A lvl pos
      let slot ← n.children.get? ci
      let c ← slot
      let rest ← fillOpening agg lvl cpos c
      let row := n.children.map fun s =>
        match s with
        | none => agg.emptySubtree
        | some m => Node.itemVal agg lvl m
      some ((row, ci) :: rest)

namespace Tree

/-- `Tree::opening`: `None` when the position is not occupied (the tree is
untouched); otherwise build the `Opening` from the captured root item and the
filled branch.  The outer `Option` models a panic inside `Opening::new`. -/
def opening {T : Type} {A : Nat} (agg : Aggregate T A) (H : Nat)
    (position : Nat) (t : Tree T) : Option (Option (Opening T) × Tree T) :=
  if position ∈ t.positions then do
    let rows ← fillOpening agg H position t.root
    some (some ⟨rootItem agg H t, rows.map Prod.fst, rows.map Prod.snd⟩,
      readRoot agg H t)
  else some (none, t)

end Tree

namespace Opening

/-- One `item_refs` array of `Opening::verify`: initialized to `A` copies of
`EMPTY_SUBTREE` and overwritten pointwise by the level's entries. -/
def padLevel {T : Type} (A : Nat) (empty : T) (level : List T) : List T :=
  level.take A ++ List.replicate (A - level.length) empty

/-- The loop of `Opening::verify`, processing the recorded levels from the
leaf up to the root: at each level the accumulated item must equal the
sibling entry at the recorded index (`none` models the `level[position]`
panic when the index is out of bounds; `some false` the early mismatch
return), and on success the level is re-aggregated and carried upward. -/
def verifyLevels {T : Type} {A : Nat} [DecidableEq T] (agg : Aggregate T A)
    (root : T) : List (List T × Nat) → T → Option Bool
  | [], item => some (decide (root = item))
  | (level, pos) :: rest, item =>
      match level.get? pos with
      | none => none
      | some v =>
          if item = v then
            verifyLevels agg root rest (agg.aggregate (padLevel A agg.emptySubtree level))
          else some false

/-- `Opening::verify`: walk the recorded levels leaf-to-root (`h` from
`H - 1` down to `0`), then compare the accumulated value with the stored
root. -/
def verify {T : Type} {A : Nat} [DecidableEq T] (agg : Aggregate T A)
    (o : Opening T) (x : T) : Option Bool :=
  verifyLevels agg o.root ((o.branch.zip o.positions).reverse) x

end Opening

/-- The per-level cursor state of a `Walk`: for each level `h`, the
currently descended-into child (`path[h]`) and the cursor index
(`indices[h]`).  `advance` works on the suffix of levels `h .. H-1`, so the
state of a node with `lvl` levels below it is a list of `lvl` entries. -/
def WalkState (T : Type) : Type := List (Option (Node T) × Nat)

/-- The leaf-level loop of `Walk::advance` (`h == H - 1`): scan the child
slots from the stored index, bumping the stored index past each tried slot,
and return the first present leaf whose item satisfies the walker together
with the updated index; `none` when the scan exhausts (the caller resets the
index to `0`). -/
def leafScan {T : Type} {A : Nat} (agg : Aggregate T A) (walker : T → Bool)
    (cs : List (Option (Node T))) (i : Nat) : Option (T × Nat) :=
  if h : i < A then
    match cs.get? i with
    | some (some leaf) =>
        if walker (Node.itemVal agg 0 leaf) then some (Node.itemVal agg 0 leaf, i + 1)
        else leafScan agg walker cs (i + 1)
    | _ => leafScan agg walker cs (i + 1)
  else none
  termination_by A - i

/-- The path-setting loop of `Walk::advance`: when no child is being
explored, scan the slots left-to-right from `i`, writing the cursor at every
try (`cur` is the value the cursor keeps when the loop body never runs), and
stop at the first present child whose item satisfies the walker. -/
def interiorScan {T : Type} {A : Nat} (agg : Aggregate T A) (walker : T → Bool)
    (lvl : Nat) (cs : List (Option (Node T))) (i : Nat) (cur : Nat) :
    Nat × Option (Node T) :=
  if h : i < A then
    match cs.get? i with
    | some (some c) =>
        if walker (Node.itemVal agg lvl c) then (i, some c)
        else interiorScan agg walker lvl cs (i + 1) i
    | _ => interiorScan agg walker lvl cs (i + 1) i
  else (cur, none)
  termination_by A - i

mutual

/-- `Walk::advance` for a node with `lvl` levels below it, acting on the
state suffix for those levels.  `lvl = 1` is the leaf-parent case
(`h == H - 1`); at interior levels the routine first sets the path when it is
unset, then advances through the descended-into child, trying the following
siblings (the `sibLoop` below) when the child's sub-walk is exhausted, and
resets its own cursor and path when the whole level is exhausted. -/
def advance {T : Type} {A : Nat} (agg : Aggregate T A) (walker : T → Bool) :
    (lvl : Nat) → Node T → WalkState T → Option T × WalkState T
  | 0, _, s => (none, s)
  | 1, n, s =>
      let pc := (s.headD (none, 0)).1
      let idx := (s.headD (none, 0)).2
      match leafScan agg walker n.children idx with
      | some (v, i') => (some v, (pc, i') :: s.tail)
      | none => (none, (pc, 0) :: s.tail)
  | lvl + 2, n, s =>
      let pc := (s.headD (none, 0)).1
      let idx := (s.headD (none, 0)).2
      let rest := s.tail
      let scanned :=
        match pc with
        | none => interiorScan agg walker (lvl + 1) n.children 0 idx
        | some c => (idx, some c)
      match scanned with
      | (idx1, none) => (none, (none, idx1) :: rest)
      | (idx1, some c) =>
          match advance agg walker (lvl + 1) c rest with
          | (some v, rest2) => (some v, (some c, idx1) :: rest2)
          | (none, rest2) =>
              match sibLoop agg walker (lvl + 1) n.children rest2 (idx1 + 1) with
              | (some v, i', c', rest3) => (some v, (c', i') :: rest3)
              | (none, _, _, rest3) => (none, (none, 0) :: rest3)
  termination_by lvl _ _ => (lvl, 0, 0)

/-- The sibling-continuation loop of `Walk::advance`: try the slots from `i`
on, descending into each present child whose item satisfies the walker, and
return the first yielded item together with the final cursor, path and deeper
state; on exhaustion the caller resets the cursor and path. -/
def sibLoop {T : Type} {A : Nat} (agg : Aggregate T A) (walker : T → Bool) :
    (lvl : Nat) → List (Option (Node T)) → WalkState T → Nat →
    Option T × Nat × Option (Node T) × WalkState T
  | lvl, cs, rest, i =>
    if h : i < A then
      match cs.get? i with
      | some (some c) =>
          if walker (Node.itemVal agg lvl c) then
            match advance agg walker lvl c rest with
            | (some v, rest2) => (some v, i, some c, rest2)
            | (none, rest2) => sibLoop agg walker lvl cs rest2 (i + 1)
          else sibLoop agg walker lvl cs rest (i + 1)
      | _ => sibLoop agg walker lvl cs rest (i + 1)
    else (none, 0, none, rest)
  termination_by lvl _ _ i => (lvl, 1, A - i)

end

/-- `struct Walk`: the tree's root and the per-level cursor state
(initialized to all-`None` paths and zero indices). -/
structure Walk (T : Type) where
  root : Node T
  state : WalkState T

/-- `Tree::walk`: a fresh walk over the tree, for height `H`. -/
def Tree.walk {T : Type} (H : Nat) (t : Tree T) : Walk T :=
  ⟨t.root, List.replicate H (none, 0)⟩

/-- `Iterator::next for Walk`: `advance(root, 0)` over the whole state. -/
def Walk.next {T : Type} {A : Nat} (agg : Aggregate T A) (walker : T → Bool)
    (w : Walk T) : Option T × Walk T :=
  let (r, s) := advance agg walker w.state.length w.root w.state
  (r, ⟨w.root, s⟩)

/-- The results of `n` successive `next()` calls on a walk. -/
def Walk.nexts {T : Type} {A : Nat} (agg : Aggregate T A) (walker : T → Bool) :
    Nat → Walk T → List (Option T)
  | 0, _ => []
  | n + 1, w =>
      let (r, w') := w.next agg walker
      r :: Walk.nexts agg walker n w'

/-- The leaf items a full traversal of a subtree with `lvl` levels below its
root produces: each present child whose item satisfies the walker contributes
its own item when it is a leaf, and its sub-traversal otherwise (the walker
is applied at every level, pruning whole subtrees). -/
def subYields {T : Type} {A : Nat} (agg : Aggregate T A) (walker : T → Bool) :
    (lvl : Nat) → Node T → List T
  | 0, n => [Node.itemVal agg 0 n]
  | lvl + 1, n =>
      (n.children.map fun s =>
        match s with
        | none => []
        | some m =>
            if walker (Node.itemVal agg lvl m) then subYields agg walker lvl m
            else []).flatten

/-- The items still to be produced at one level, scanning the child slots
from index `i` on. -/
def sibYields {T : Type} {A : Nat} (agg : Aggregate T A) (walker : T → Bool)
    (lvl : Nat) (cs : List (Option (Node T))) (i : Nat) : List T :=
  ((cs.drop i).map fun s =>
    match s with
    | none => []
    | some m =>
        if walker (Node.itemVal agg lvl m) then subYields agg walker lvl m
        else []).flatten

/-- The fixed-size byte encoding contract of `dusk_bytes::Serializable<SIZE>`:
`toBytes` produces the `S`-byte encoding, `fromBytes` decodes an `S`-byte
chunk (`none` = malformed data). -/
structure Serializable (T : Type) (S : Nat) where
  toBytes : T → List Nat
  fromBytes : List Nat → Option T

/-- `dusk_bytes::Error`: a buffer-size mismatch (with the found and expected
sizes) or a generic data/decoding error. -/
inductive BytesError : Type where
  | badLength (found : Nat) (expected : Nat) : BytesError
  | invalidData : BytesError
  deriving DecidableEq

/-- `T::from_reader`: consume `S` bytes from the front of the buffer,
reporting a `BadLength` when fewer remain and propagating a decoding
failure as `InvalidData`. -/
def readItem {T : Type} {S : Nat} (ser : Serializable T S) (buf : List Nat) :
    Except BytesError (T × List Nat) :=
  if S ≤ buf.length then
    match ser.fromBytes (buf.take S) with
    | some v => .ok (v, buf.drop S)
    | none => .error .invalidData
  else .error (.badLength buf.length S)

/-- Read `k` consecutive items. -/
def readItems {T : Type} {S : Nat} (ser : Serializable T S) :
    Nat → List Nat → Except BytesError (List T × List Nat)
  | 0, buf => .ok ([], buf)
  | k + 1, buf => do
      let (v, buf) ← readItem ser buf
      let (vs, buf) ← readItems ser k buf
      .ok (v :: vs, buf)

/-- Read `h` branch rows of `a` items each (the two nested deserialization
loops of `Opening::from_slice`). -/
def readRows {T : Type} {S : Nat} (ser : Serializable T S) :
    Nat → Nat → List Nat → Except BytesError (List (List T) × List Nat)
  | 0, _, buf => .ok ([], buf)
  | h + 1, a, buf => do
      let (row, buf) ← readItems ser a buf
      let (rows, buf) ← readRows ser h a buf
      .ok (row :: rows, buf)

/-- The 4-byte little-endian encoding of `pos as u32` (the cast truncates
modulo `2 ^ 32`). -/
def u32ToLE (pos : Nat) : List Nat :=
  [pos % 256, pos / 256 % 256, pos / 65536 % 256, pos / 16777216 % 256]

/-- `u32::from_reader`: consume 4 little-endian bytes. -/
def readU32 (buf : List Nat) : Except BytesError (Nat × List Nat) :=
  match buf with
  | a :: b :: c :: d :: rest =>
      .ok (a % 256 + 256 * (b % 256) + 65536 * (c % 256) + 16777216 * (d % 256), rest)
  | _ => .error (.badLength buf.length 4)

/-- Read `h` consecutive `u32` indices (the positions loop of
`Opening::from_slice`). -/
def readU32s : Nat → List Nat → Except BytesError (List Nat × List Nat)
  | 0, buf => .ok ([], buf)
  | h + 1, buf => do
      let (p, buf) ← readU32 buf
      let (ps, buf) ← readU32s h buf
      .ok (p :: ps, buf)

namespace Opening

/-- `Opening::to_var_bytes`: extend a byte vector with the root's encoding,
then every branch level's `A` sibling encodings in order, then every chosen
index as a 4-byte unsigned integer. -/
def toVarBytes {T : Type} {S : Nat} (ser : Serializable T S) (o : Opening T) :
    List Nat :=
  let bytes := ser.toBytes o.root
  let bytes := o.branch.foldl
    (fun acc level => level.foldl (fun acc item => acc ++ ser.toBytes item) acc)
    bytes
  let bytes := o.positions.foldl (fun acc pos => acc ++ u32ToLE pos) bytes
  bytes

/-- `Opening::from_slice` for height `H` and arity `A`: check the buffer
length against `(1 + H*A)*S + H*4` before parsing, then deserialize the
root, the `H × A` branch and the `H` indices in order. -/
def fromSlice {T : Type} {S : Nat} (ser : Serializable T S) (H A : Nat)
    (buf : List Nat) : Except BytesError (Opening T) :=
  let expectedLen := (1 + H * A) * S + H * 4
  if buf.length ≠ expectedLen then
    .error (.badLength buf.length expectedLen)
  else do
    let (root, buf) ← readItem ser buf
    let (branch, buf) ← readRows ser H A buf
    let (positions, _) ← readU32s H buf
    .ok ⟨root, branch, positions⟩

end Opening

/-! ## Invariants of reachable trees -/

namespace Node

/-- Well-formedness of a sparse node with `lvl` levels below it: every node
has exactly `A` child slots; a bottom node stores a value and has no
materialized children; every present child of an internal node is well formed
and has at least one materialized leaf (children are pruned on removal). -/
def WF {T : Type} (A : Nat) : Nat → Node T → Prop
  | 0, n => n.children.length = A ∧ n.children.all Option.isNone ∧ n.itemCache.isSome
  | lvl + 1, n => n.children.length = A ∧
      ∀ m, some m ∈ n.children → WF A lvl m ∧ leafPositions A lvl m ≠ []

/-- Cache coherence: every set cache along the subtree holds exactly the
naive recursive aggregation of the stored leaves below it. -/
def Coh {T : Type} {A : Nat} (agg : Aggregate T A) : Nat → Node T → Prop
  | 0, _ => True
  | lvl + 1, n => (∀ v, n.itemCache = some v → v = specItem agg (lvl + 1) n) ∧
      ∀ m, some m ∈ n.children → Coh agg lvl m

end Node

namespace Tree

/-- The state-transition operations a tree owner can perform: `insert`,
`remove`, and the cache-filling `root()` read. -/
inductive Reachable {T : Type} {A : Nat} (agg : Aggregate T A) (H : Nat) :
    Tree T → Prop where
  | base : Reachable agg H (Tree.new T A)
  | ins {t t' : Tree T} {p : Nat} {x : T} (ht : Reachable agg H t)
      (hs : Tree.insert H A p x t = some t') : Reachable agg H t'
  | rem {t t' : Tree T} {p : Nat} {r : Option T} (ht : Reachable agg H t)
      (hs : Tree.remove H A p t = some (r, t')) : Reachable agg H t'
  | read {t : Tree T} (ht : Reachable agg H t) :
      Reachable agg H (Tree.readRoot agg H t)

/-- The invariant every reachable tree satisfies: a well-formed, cache
coherent root whose materialized leaf positions are exactly the positions
set. -/
def Inv {T : Type} {A : Nat} (agg : Aggregate T A) (H : Nat) (t : Tree T) : Prop :=
  Node.WF A H t.root ∧ Node.Coh agg H t.root ∧
    (Node.leafPositions A H t.root).toFinset = t.positions

end Tree

/-! ## Serialization lemmas -/

theorem foldl_append_eq {α β : Type} (f : β → List α) :
    ∀ (l : List β) (init : List α),
      l.foldl (fun acc b => acc ++ f b) init = init ++ (l.map f).flatten := by
  intro l
  induction l with
  | nil => intro init; simp
  | cons b l ih => intro init; simp [ih, List.append_assoc]

/-- The byte stream produced by `to_var_bytes` is the root's encoding, then
the branch levels' sibling encodings row by row, then the indices as 4-byte
integers. -/
theorem toVarBytes_eq {T : Type} {S : Nat} (ser : Serializable T S) (o : Opening T) :
    o.toVarBytes ser =
      ser.toBytes o.root ++ (o.branch.map fun row => (row.map ser.toBytes).flatten).flatten
        ++ (o.positions.map u32ToLE).flatten := by
  unfold Opening.toVarBytes
  simp only [foldl_append_eq, List.append_assoc]

@[simp] theorem exceptBind_ok {ε α β : Type} (a : α) (f : α → Except ε β) :
    (Except.ok a : Except ε α) >>= f = f a := rfl

@[simp] theorem exceptBind_error {ε α β : Type} (e : ε) (f : α → Except ε β) :
    (Except.error e : Except ε α) >>= f = (Except.error e : Except ε β) := rfl

@[simp] theorem optionBind_some {α β : Type} (a : α) (f : α → Option β) :
    (some a : Option α) >>= f = f a := rfl

@[simp] theorem optionBind_none {α β : Type} (f : α → Option β) :
    (none : Option α) >>= f = none := rfl

theorem flatten_map_length_eq {α β : Type} (f : α → List β) (c : Nat) :
    ∀ (l : List α), (∀ x ∈ l, (f x).length = c) →
      ((l.map f).flatten).length = l.length * c := by
  intro l
  induction l with
  | nil => simp
  | cons a l ih =>
      intro h
      simp only [List.map_cons, List.flatten_cons, List.length_append, List.length_cons]
      rw [h a (by simp), ih fun x hx => h x (by simp [hx])]
      ring

theorem toVarBytes_length {T : Type} {S : Nat} (ser : Serializable T S)
    (o : Opening T) (H A : Nat) (hser : ∀ v, (ser.toBytes v).length = S)
    (hbl : o.branch.length = H) (hrow : ∀ row ∈ o.branch, row.length = A)
    (hpl : o.positions.length = H) :
    (o.toVarBytes ser).length = (1 + H * A) * S + H * 4 := by
  rw [toVarBytes_eq]
  have hr : ∀ row ∈ o.branch, ((row.map ser.toBytes).flatten).length = A * S := by
    intro row hrow'
    rw [flatten_map_length_eq ser.toBytes S row fun x _ => hser x, hrow row hrow']
  rw [List.length_append, List.length_append, hser,
    flatten_map_length_eq _ (A * S) o.branch hr,
    flatten_map_length_eq u32ToLE 4 o.positions fun p _ => by simp [u32ToLE],
    hbl, hpl]
  ring

theorem readItem_append {T : Type} {S : Nat} (ser : Serializable T S) (v : T)
    (rest : List Nat) (hlen : (ser.toBytes v).length = S)
    (hrt : ser.fromBytes (ser.toBytes v) = some v) :
    readItem ser (ser.toBytes v ++ rest) = .ok (v, rest) := by
  have ht : (ser.toBytes v ++ rest).take S = ser.toBytes v := List.take_left' hlen
  have hd : (ser.toBytes v ++ rest).drop S = rest := List.drop_left' hlen
  unfold readItem
  rw [if_pos (by simp [hlen]), ht, hrt, hd]

theorem readItems_append {T : Type} {S : Nat} (ser : Serializable T S)
    (hser : ∀ v, (ser.toBytes v).length = S)
    (hrt : ∀ v, ser.fromBytes (ser.toBytes v) = some v) :
    ∀ (vs : List T) (rest : List Nat),
      readItems ser vs.length ((vs.map ser.toBytes).flatten ++ rest) = .ok (vs, rest) := by
  intro vs
  induction vs with
  | nil => intro rest; simp [readItems]
  | cons v vs ih =>
      intro rest
      simp only [List.map_cons, List.flatten_cons, List.length_cons, List.append_assoc]
      rw [readItems, readItem_append ser v _ (hser v) (hrt v)]
      simp only [exceptBind_ok]
      rw [ih rest]
      rfl

theorem readRows_append {T : Type} {S : Nat} (ser : Serializable T S) (A : Nat)
    (hser : ∀ v, (ser.toBytes v).length = S)
    (hrt : ∀ v, ser.fromBytes (ser.toBytes v) = some v) :
    ∀ (rows : List (List T)) (rest : List Nat), (∀ r ∈ rows, r.length = A) →
      readRows ser rows.length A
          ((rows.map fun r => (r.map ser.toBytes).flatten).flatten ++ rest)
        = .ok (rows, rest) := by
  intro rows
  induction rows with
  | nil => intro rest _; simp [readRows]
  | cons r rows ih =>
      intro rest hrw
      simp only [List.map_cons, List.flatten_cons, List.length_cons, List.append_assoc]
      have hA : A = r.length := (hrw r (by simp)).symm
      rw [readRows]
      rw [show (readItems ser A ((r.map ser.toBytes).flatten ++
          ((rows.map fun rr => (rr.map ser.toBytes).flatten).flatten ++ rest)))
        = .ok (r, (rows.map fun rr => (rr.map ser.toBytes).flatten).flatten ++ rest) by
        rw [hA, readItems_append ser hser hrt r _]]
      simp only [exceptBind_ok]
      rw [ih rest fun x hx => hrw x (by simp [hx])]
      rfl

theorem readU32_append (p : Nat) (rest : List Nat) (hp : p < 4294967296) :
    readU32 (u32ToLE p ++ rest) = .ok (p, rest) := by
  simp only [u32ToLE, List.cons_append, List.nil_append, readU32]
  congr 2
  omega

theorem readU32s_append :
    ∀ (ps : List Nat) (rest : List Nat), (∀ p ∈ ps, p < 4294967296) →
      readU32s ps.length ((ps.map u32ToLE).flatten ++ rest) = .ok (ps, rest) := by
  intro ps
  induction ps with
  | nil => intro rest _; simp [readU32s]
  | cons p ps ih =>
      intro rest hps
      simp only [List.map_cons, List.flatten_cons, List.length_cons, List.append_assoc]
      rw [readU32s, readU32_append p _ (hps p (by simp))]
      simp only [exceptBind_ok]
      rw [ih rest fun q hq => hps q (by simp [hq])]
      rfl

theorem readItem_progress {T : Type} {S : Nat} (ser : Serializable T S)
    (buf : List Nat) (h : S ≤ buf.length) :
    (∃ v, readItem ser buf = .ok (v, buf.drop S)) ∨
      readItem ser buf = .error .invalidData := by
  unfold readItem
  rw [if_pos h]
  cases ser.fromBytes (buf.take S) with
  | none => right; rfl
  | some v => left; exact ⟨v, rfl⟩

theorem readItems_progress {T : Type} {S : Nat} (ser : Serializable T S) :
    ∀ (k : Nat) (buf : List Nat), k * S ≤ buf.length →
      (∃ vs rest, readItems ser k buf = .ok (vs, rest) ∧ rest = buf.drop (k * S)) ∨
        readItems ser k buf = .error .invalidData := by
  intro k
  induction k with
  | zero => intro buf _; left; exact ⟨[], buf, rfl, by simp⟩
  | succ k ih =>
      intro buf hlen
      have hexp : (k + 1) * S = k * S + S := by ring
      have hS : S ≤ buf.length := by omega
      rw [readItems]
      rcases readItem_progress ser buf hS with ⟨v, hv⟩ | hv
      · rw [hv]
        simp only [exceptBind_ok]
        have hexp : (k + 1) * S = k * S + S := by ring
        have hlen2 : k * S ≤ (buf.drop S).length := by
          simp only [List.length_drop]; omega
        rcases ih (buf.drop S) hlen2 with ⟨vs, rest, hvs, hrest⟩ | hvs
        · rw [hvs]
          left
          refine ⟨v :: vs, rest, rfl, ?_⟩
          rw [hrest, List.drop_drop]
          congr 1
          ring
        · rw [hvs]; right; rfl
      · rw [hv]; right; rfl

theorem readRows_progress {T : Type} {S : Nat} (ser : Serializable T S) :
    ∀ (h a : Nat) (buf : List Nat), h * (a * S) ≤ buf.length →
      (∃ rows rest, readRows ser h a buf = .ok (rows, rest) ∧
        rest = buf.drop (h * (a * S))) ∨
        readRows ser h a buf = .error .invalidData := by
  intro h
  induction h with
  | zero => intro a buf _; left; exact ⟨[], buf, rfl, by simp⟩
  | succ h ih =>
      intro a buf hlen
      have hexp : (h + 1) * (a * S) = h * (a * S) + a * S := by ring
      have haS : a * S ≤ buf.length := by omega
      rw [readRows]
      rcases readItems_progress ser a buf haS with ⟨row, rest1, hrow, hrest1⟩ | hrow
      · rw [hrow]
        simp only [exceptBind_ok]
        have hexp : (h + 1) * (a * S) = h * (a * S) + a * S := by ring
        have hlen2 : h * (a * S) ≤ rest1.length := by
          rw [hrest1]; simp only [List.length_drop]; omega
        rcases ih a rest1 hlen2 with ⟨rows, rest, hrows, hrest⟩ | hrows
        · rw [hrows]
          left
          refine ⟨row :: rows, rest, rfl, ?_⟩
          rw [hrest, hrest1, List.drop_drop]
          congr 1
          ring
        · rw [hrows]; right; rfl
      · rw [hrow]; right; rfl

theorem readU32_progress (buf : List Nat) (h : 4 ≤ buf.length) :
    ∃ p, readU32 buf = .ok (p, buf.drop 4) := by
  match buf, h with
  | a :: b :: c :: d :: rest, _ => exact ⟨_, rfl⟩

theorem readU32s_progress :
    ∀ (h : Nat) (buf : List Nat), h * 4 ≤ buf.length →
      ∃ ps rest, readU32s h buf = .ok (ps, rest) ∧ rest = buf.drop (h * 4) := by
  intro h
  induction h with
  | zero => intro buf _; exact ⟨[], buf, rfl, by simp⟩
  | succ h ih =>
      intro buf hlen
      have h4 : 4 ≤ buf.length := le_trans (by omega) hlen
      obtain ⟨p, hp⟩ := readU32_progress buf h4
      rw [readU32s, hp]
      simp only [exceptBind_ok]
      have hlen2 : h * 4 ≤ (buf.drop 4).length := by
        simp only [List.length_drop]; omega
      obtain ⟨ps, rest, hps, hrest⟩ := ih (buf.drop 4) hlen2
      rw [hps]
      refine ⟨p :: ps, rest, rfl, ?_⟩
      rw [hrest, List.drop_drop]
      congr 1
      ring

/-! ## Claims C4, C5, C10: the `Opening` byte format -/

/-- **C4.**  For items with a fixed-size encoding of `S` bytes,
`to_var_bytes` produces exactly `(1 + H*A)*S + H*4` bytes laid out as the
root, then the `H` levels' `A` sibling encodings in order, then the `H`
chosen indices as 4-byte unsigned integers; `from_slice` returns a length
error exactly when the buffer length differs from this formula (before any
parsing), and otherwise any decoding failure surfaces as a data error. -/
theorem C4_opening_serialization {T : Type} {S : Nat} (ser : Serializable T S)
    (H A : Nat) (hser : ∀ v, (ser.toBytes v).length = S) :
    (∀ o : Opening T, o.branch.length = H → (∀ row ∈ o.branch, row.length = A) →
      o.positions.length = H →
      o.toVarBytes ser = ser.toBytes o.root ++
          (o.branch.map fun row => (row.map ser.toBytes).flatten).flatten ++
          (o.positions.map u32ToLE).flatten ∧
      (o.toVarBytes ser).length = (1 + H * A) * S + H * 4) ∧
    (∀ buf : List Nat, buf.length ≠ (1 + H * A) * S + H * 4 →
      Opening.fromSlice ser H A buf =
        .error (.badLength buf.length ((1 + H * A) * S + H * 4))) ∧
    (∀ buf : List Nat, buf.length = (1 + H * A) * S + H * 4 →
      (∃ o, Opening.fromSlice ser H A buf = .ok o) ∨
        Opening.fromSlice ser H A buf = .error .invalidData) := by
  refine ⟨?_, ?_, ?_⟩
  · intro o hbl hrow hpl
    exact ⟨toVarBytes_eq ser o, toVarBytes_length ser o H A hser hbl hrow hpl⟩
  · intro buf hne
    unfold Opening.fromSlice
    rw [if_pos hne]
  · intro buf hlen
    unfold Opening.fromSlice
    rw [if_neg (by omega)]
    have hexp : (1 + H * A) * S = S + H * (A * S) := by ring
    have hS : S ≤ buf.length := by omega
    rcases readItem_progress ser buf hS with ⟨root, hroot⟩ | hroot
    · rw [hroot]
      simp only [exceptBind_ok]
      have hrows : H * (A * S) ≤ (buf.drop S).length := by
        simp only [List.length_drop]; omega
      rcases readRows_progress ser H A (buf.drop S) hrows with
        ⟨branch, rest2, hbr, hrest2⟩ | hbr
      · rw [hbr]
        simp only [exceptBind_ok]
        have hu : H * 4 ≤ rest2.length := by
          rw [hrest2]; simp only [List.length_drop]; omega
        obtain ⟨ps, rest3, hps, _⟩ := readU32s_progress H rest2 hu
        rw [hps]
        left
        exact ⟨⟨root, branch, ps⟩, rfl⟩
      · rw [hbr]; right; rfl
    · rw [hroot]; right; rfl

/-- Witness for C4 at `T = Bool`, `S = 1`, `H = A = 1`. -/
def boolSer : Serializable Bool 1 :=
  ⟨fun b => [if b then 1 else 0],
   fun l => match l with
     | [0] => some false
     | [1] => some true
     | _ => none⟩

theorem C4_opening_serialization_witness :
    Opening.toVarBytes boolSer ⟨true, [[false]], [0]⟩ = [1, 0, 0, 0, 0, 0] ∧
    Opening.fromSlice boolSer 1 1 [1, 2, 3] = .error (.badLength 3 6) ∧
    ((∃ o, Opening.fromSlice boolSer 1 1 [1, 0, 0, 0, 0, 0] = .ok o) ∨
      Opening.fromSlice boolSer 1 1 [1, 0, 0, 0, 0, 0] = .error .invalidData) := by
  have h := C4_opening_serialization boolSer 1 1 (fun v => by cases v <;> rfl)
  refine ⟨?_, ?_, ?_⟩
  · have h1 := (h.1 ⟨true, [[false]], [0]⟩ rfl (by simp) rfl).1
    rw [h1]; rfl
  · exact h.2.1 [1, 2, 3] (by decide)
  · exact h.2.2 [1, 0, 0, 0, 0, 0] (by decide)

/-- **C5.**  Deserializing the serialization of an opening gives back the
same opening, and the deserialized opening verifies exactly what the original
verifies. -/
theorem C5_opening_roundtrip {T : Type} {S : Nat} [DecidableEq T]
    (ser : Serializable T S) (H A : Nat)
    (hser : ∀ v, (ser.toBytes v).length = S)
    (hrt : ∀ v, ser.fromBytes (ser.toBytes v) = some v)
    (o : Opening T) (hbl : o.branch.length = H)
    (hrow : ∀ row ∈ o.branch, row.length = A) (hpl : o.positions.length = H)
    (hpos : ∀ p ∈ o.positions, p < 4294967296) :
    Opening.fromSlice ser H A (o.toVarBytes ser) = .ok o ∧
    ∀ (agg : Aggregate T A) (y : T),
      (Opening.fromSlice ser H A (o.toVarBytes ser)).toOption.map
          (fun o2 => Opening.verify agg o2 y) =
        some (Opening.verify agg o y) := by
  have hmain : Opening.fromSlice ser H A (o.toVarBytes ser) = .ok o := by
    unfold Opening.fromSlice
    rw [if_neg (by
      rw [toVarBytes_length ser o H A hser hbl hrow hpl]
      omega)]
    rw [toVarBytes_eq]
    rw [List.append_assoc]
    rw [readItem_append ser o.root _ (hser o.root) (hrt o.root)]
    simp only [exceptBind_ok]
    rw [show (o.positions.map u32ToLE).flatten
        = (o.positions.map u32ToLE).flatten ++ [] by simp]
    rw [← hbl, readRows_append ser A hser hrt o.branch _ hrow]
    simp only [exceptBind_ok]
    rw [hbl, ← hpl, readU32s_append o.positions [] hpos]
    rfl
  exact ⟨hmain, fun agg y => by rw [hmain]; rfl⟩

/-- Witness for C5 at `T = Bool`, `S = 1`, `H = A = 1`. -/
theorem C5_opening_roundtrip_witness :
    Opening.fromSlice boolSer 1 1
        (Opening.toVarBytes boolSer ⟨true, [[true]], [0]⟩) =
      .ok ⟨true, [[true]], [0]⟩ := by
  exact (C5_opening_roundtrip boolSer 1 1 (fun v => by cases v <;> rfl)
    (fun v => by cases v <;> rfl) ⟨true, [[true]], [0]⟩ rfl (by simp) rfl
    (by intro p hp; simp at hp; omega)).1

/-- The trivial item type used for the C10 counter-model: zero-size encoding
and unit aggregation. -/
def unitSer : Serializable Unit 0 := ⟨fun _ => [], fun _ => some ()⟩

def unitAgg : Aggregate Unit 1 := ⟨(), fun _ => ()⟩

/-- **C10.**  A buffer of exactly the expected length whose decoded index is
out of range deserializes successfully — `from_slice` never bounds-checks the
indices — and `verify` on the resulting opening panics with an out-of-bounds
access into the sibling row (modelled by `none`) instead of returning
`false`: at `H = A = 1`, `S = 0`, the 4-byte buffer `[7,0,0,0]` decodes to an
opening with recorded index `7 ≥ A = 1`, and `verify` panics. -/
theorem C10_from_slice_unchecked_positions :
    [7, 0, 0, 0].length = (1 + 1 * 1) * 0 + 1 * 4 ∧
    Opening.fromSlice unitSer 1 1 [7, 0, 0, 0] = .ok ⟨(), [[()]], [7]⟩ ∧
    1 ≤ 7 ∧
    Opening.verify unitAgg ⟨(), [[()]], [7]⟩ () = none := by
  refine ⟨rfl, rfl, by omega, rfl⟩

end DuskMerkle

namespace DuskMerkle

/-! ## Claim C8: absence is not an error -/

/-- **C8.**  `remove` and `opening` on an unoccupied position return the
"no value" result (no panic), leaving the root node and the positions set
unchanged. -/
theorem C8_absence_not_error {T : Type} {A : Nat} (agg : Aggregate T A)
    (H p : Nat) (t : Tree T) (h : Tree.contains p t = false) :
    Tree.remove H A p t = some (none, t) ∧
      Tree.opening agg H p t = some (none, t) := by
  have hp : p ∉ t.positions := by
    simpa [Tree.contains] using h
  constructor
  · unfold Tree.remove
    rw [if_neg hp]
  · unfold Tree.opening
    rw [if_neg hp]

theorem C8_absence_not_error_witness :
    Tree.contains 0 (Tree.new Nat 1) = false ∧
      Tree.remove 1 1 0 (Tree.new Nat 1) = some (none, Tree.new Nat 1) := by
  have h : Tree.contains 0 (Tree.new Nat 1) = false := by decide
  exact ⟨h, (C8_absence_not_error ⟨0, fun l => l.sum⟩ 1 0 (Tree.new Nat 1) h).1⟩

end DuskMerkle

namespace DuskMerkle

/-! ## Claim C9: the smallest-covering-subtree query -/

/-- **C9.**  `smallest_subtree` behaves exactly as described: starting at the
root with `height = H`, zero present children yields `(None, 0)`; exactly one
present child with the bottom not reached descends and decrements the height;
otherwise the current node's item and current height are returned. -/
theorem C9_smallest_subtree {T : Type} {A : Nat} (agg : Aggregate T A) :
    ∀ (height : Nat) (n : Node T),
      Tree.smallestSubtree agg height n = Tree.smallestSubtreeSpec agg height n := by
  intro height
  induction height using Nat.strong_induction_on with
  | _ height ih =>
      intro n
      rw [Tree.smallestSubtree.eq_def, Tree.smallestSubtreeSpec.eq_def]
      dsimp only
      rcases hfc : n.children.filterMap id with - | ⟨c, - | ⟨c2, rest⟩⟩
      · simp
      · dsimp only
        have h0 : ¬(([c] : List (Node T)).length = 0) := by simp
        by_cases hh : 1 < height
        · rw [dif_pos hh, if_neg h0, dif_pos ⟨by simp, hh⟩]
          simp only [List.head?_cons]
          exact ih (height - 1) (by omega) c
        · rw [dif_neg hh, if_neg h0, dif_neg (by simp [hh])]
      · dsimp only
        rw [if_neg (by simp), dif_neg (by simp)]

end DuskMerkle

namespace DuskMerkle

/-! ## Counterexamples for C2, C3 and C6 -/

/-- An aggregator over `Nat` (arity 1) for which aggregating one empty
subtree differs from the empty-subtree sentinel. -/
def plusOneAgg : Aggregate Nat 1 := ⟨0, fun l => l.foldl (· + ·) 1⟩

/-- **C2, counterexample.**  On the empty tree — reachable, since `new()`
produces it — `root()` is `EMPTY_SUBTREE`, while the naive aggregation as the
claim words it (an internal node's item is the aggregate over its children's
items with `EMPTY_SUBTREE` substituted for absent children) aggregates the
root's absent children, giving a different value for an aggregator with
`aggregate([EMPTY]) ≠ EMPTY`. -/
theorem C2_cache_coherence_cex :
    Tree.Reachable plusOneAgg 1 (Tree.new Nat 1) ∧
    Tree.rootItem plusOneAgg 1 (Tree.new Nat 1) = 0 ∧
    Node.specItemClaim plusOneAgg 1 (Tree.new Nat 1).root = 1 ∧
    Tree.rootItem plusOneAgg 1 (Tree.new Nat 1) ≠
      Node.specItemClaim plusOneAgg 1 (Tree.new Nat 1).root := by
  refine ⟨Tree.Reachable.base, rfl, rfl, by decide⟩

/-- A sum aggregator over `Nat` with arity 1 for the walk counterexample. -/
def sumAgg1 : Aggregate Nat 1 := ⟨0, fun l => l.foldl (· + ·) 0⟩

/-- The walker that accepts everything. -/
def allWalker : Nat → Bool := fun _ => true

/-- **C3, counterexample.**  On a height-1, arity-1 tree holding one leaf,
three successive `next()` calls on a single walk yield `Some`, `None`,
`Some`: after the first `None` the cursor state has been reset, so the walk
restarts and yields the leaf again — contradicting both "at most `len()`
items in total" (two items are yielded, `len() = 1`) and "once `next()` has
returned `None` every subsequent `next()` also returns `None`". -/
theorem C3_walk_cex :
    (Tree.insert 1 1 0 42 (Tree.new Nat 1)).map
        (fun t => (Walk.nexts sumAgg1 allWalker 3 (Tree.walk 1 t), Tree.len t))
      = some ([some 42, none, some 42], 1) := by
  have hins : Tree.insert 1 1 0 42 (Tree.new Nat 1) =
      some ⟨Node.mk none [some (Node.mk (some 42) [none])], {0}⟩ := rfl
  have hscan0 : leafScan sumAgg1 allWalker [some (Node.mk (some 42) [none])] 0
      = some (42, 1) := by
    rw [leafScan.eq_def]
    norm_num [allWalker]
    rfl
  have hscan1 : leafScan sumAgg1 allWalker [some (Node.mk (some 42) [none])] 1
      = none := by
    rw [leafScan.eq_def]
    norm_num
  have hadv0 : advance sumAgg1 allWalker 1
      (Node.mk none [some (Node.mk (some 42) [none])]) [(none, 0)]
      = (some 42, [(none, 1)]) := by
    rw [advance.eq_def]
    dsimp only [Node.children_mk, List.headD, List.tail]
    rw [hscan0]
  have hadv1 : advance sumAgg1 allWalker 1
      (Node.mk none [some (Node.mk (some 42) [none])]) [(none, 1)]
      = (none, [(none, 0)]) := by
    rw [advance.eq_def]
    dsimp only [Node.children_mk, List.headD, List.tail]
    rw [hscan1]
  have h1 : Walk.nexts sumAgg1 allWalker 3
      (Tree.walk 1 (⟨Node.mk none [some (Node.mk (some 42) [none])], {0}⟩ : Tree Nat))
      = [some 42, none, some 42] := by
    simp only [Tree.walk, Walk.nexts, Walk.next]
    norm_num [hadv0, hadv1]
  have h2 : Tree.len
      (⟨Node.mk none [some (Node.mk (some 42) [none])], {0}⟩ : Tree Nat) = 1 := by
    decide
  rw [hins]
  simp [h1, h2]

end DuskMerkle

namespace DuskMerkle

/-- **C6, counterexample.**  `remove` at an out-of-range position on a
reachable tree does not panic: the positions-set guard fails first, so it
returns the "no value" result with the tree unchanged (at `H = A = 1` the
capacity is `1` and `remove(1)` returns `None` normally), contradicting the
claim that out-of-range `remove` is a fatal precondition violation. -/
theorem C6_remove_no_panic_cex :
    Tree.cap 1 1 ≤ 1 ∧ Tree.Reachable sumAgg1 1 (Tree.new Nat 1) ∧
    Tree.remove 1 1 1 (Tree.new Nat 1) = some (none, Tree.new Nat 1) := by
  refine ⟨by decide, Tree.Reachable.base, ?_⟩
  unfold Tree.remove
  rw [if_neg (by decide)]

end DuskMerkle

namespace DuskMerkle

namespace Node

theorem capacity_pos {A : Nat} (hA : 0 < A) (lvl : Nat) : 0 < capacity A lvl :=
  pow_pos hA lvl

theorem mem_leafPositions_succ {T : Type} {A lvl : Nat} {n : Node T} {q : Nat} :
    q ∈ leafPositions A (lvl + 1) n ↔
      ∃ i m r, n.children.get? i = some (some m) ∧ r ∈ leafPositions A lvl m ∧
        q = i * capacity A lvl + r := by
  show q ∈ (n.children.enum.map _).flatten ↔ _
  rw [List.mem_flatten]
  constructor
  · rintro ⟨l, hl, hql⟩
    rw [List.mem_map] at hl
    obtain ⟨⟨i, c⟩, hp, rfl⟩ := hl
    rw [List.mem_enum_iff_get?] at hp
    cases c with
    | none => simp at hql
    | some m =>
        simp only [List.mem_map] at hql
        obtain ⟨r, hr, rfl⟩ := hql
        exact ⟨i, m, r, hp, hr, rfl⟩
  · rintro ⟨i, m, r, hget, hr, rfl⟩
    refine ⟨(leafPositions A lvl m).map fun q => i * capacity A lvl + q, ?_, ?_⟩
    · rw [List.mem_map]
      exact ⟨(i, some m), List.mem_enum_iff_get?.2 hget, rfl⟩
    · rw [List.mem_map]
      exact ⟨r, hr, rfl⟩

theorem WF_zero {T : Type} {A : Nat} {n : Node T} :
    WF A 0 n ↔ n.children.length = A ∧ n.children.all Option.isNone ∧
      n.itemCache.isSome := Iff.rfl

theorem WF_succ {T : Type} {A lvl : Nat} {n : Node T} :
    WF A (lvl + 1) n ↔ n.children.length = A ∧
      ∀ m, some m ∈ n.children → WF A lvl m ∧ leafPositions A lvl m ≠ [] :=
  Iff.rfl

theorem WF.children_length {T : Type} {A lvl : Nat} {n : Node T}
    (h : WF A lvl n) : n.children.length = A := by
  cases lvl with
  | zero => exact h.1
  | succ lvl => exact h.1

theorem leafPositions_lt {T : Type} {A : Nat} (hA : 0 < A) :
    ∀ (lvl : Nat) (n : Node T), WF A lvl n →
      ∀ q ∈ leafPositions A lvl n, q < capacity A lvl := by
  intro lvl
  induction lvl with
  | zero =>
      intro n _ q hq
      simp only [leafPositions, List.mem_singleton] at hq
      subst hq
      simpa [capacity] using Nat.zero_lt_one
  | succ lvl ih =>
      intro n hwf q hq
      rw [mem_leafPositions_succ] at hq
      obtain ⟨i, m, r, hget, hr, rfl⟩ := hq
      have hmem : some m ∈ n.children := List.get?_mem hget
      have hm := (WF_succ.1 hwf).2 m hmem
      have hrlt : r < capacity A lvl := ih m hm.1 r hr
      have hi : i < A := by
        have hlen : i < n.children.length := (List.get?_eq_some.1 hget).1
        rwa [hwf.children_length] at hlen
      calc i * capacity A lvl + r < i * capacity A lvl + capacity A lvl := by omega
        _ = (i + 1) * capacity A lvl := by ring
        _ ≤ A * capacity A lvl := Nat.mul_le_mul_right _ hi
        _ = capacity A (lvl + 1) := by
            show A * A ^ lvl = A ^ (lvl + 1)
            rw [pow_succ]
            ring

end Node

end DuskMerkle

namespace DuskMerkle

namespace Node

theorem leafPositions_nodup {T : Type} {A : Nat} (hA : 0 < A) :
    ∀ (lvl : Nat) (n : Node T), WF A lvl n → (leafPositions A lvl n).Nodup := by
  intro lvl
  induction lvl with
  | zero => intro n _; simp [leafPositions]
  | succ lvl ih =>
      intro n hwf
      show ((n.children.enum.map _).flatten).Nodup
      rw [List.nodup_flatten]
      constructor
      · intro l hl
        rw [List.mem_map] at hl
        obtain ⟨⟨i, c⟩, hp, rfl⟩ := hl
        cases c with
        | none => simp
        | some m =>
            rw [List.mem_enum_iff_get?] at hp
            have hm := (WF_succ.1 hwf).2 m (List.get?_mem hp)
            exact (ih m hm.1).map fun a b h => by omega
      · have hpair : n.children.enum.Pairwise (fun p q => p.1 ≠ q.1) := by
          have h := List.nodup_enum_map_fst n.children
          rwa [List.Nodup, List.pairwise_map] at h
        rw [List.pairwise_map]
        refine hpair.imp_of_mem ?_
        rintro ⟨i, c⟩ ⟨j, d⟩ hpc hqc hij
        simp only at hij
        intro q hq hq2
        cases c with
        | none => simp at hq
        | some m =>
            cases d with
            | none => simp at hq2
            | some m2 =>
                rw [List.mem_map] at hq hq2
                obtain ⟨r, hr, rfl⟩ := hq
                obtain ⟨r2, hr2, heq⟩ := hq2
                dsimp only at heq
                rw [List.mem_enum_iff_get?] at hpc hqc
                have hm := (WF_succ.1 hwf).2 m (List.get?_mem hpc)
                have hm2 := (WF_succ.1 hwf).2 m2 (List.get?_mem hqc)
                have h1 : r < capacity A lvl := leafPositions_lt hA lvl m hm.1 r hr
                have h2 : r2 < capacity A lvl := leafPositions_lt hA lvl m2 hm2.1 r2 hr2
                have hceq : i = j := by
                  have hc := capacity_pos hA lvl
                  rcases Nat.lt_trichotomy i j with h | h | h
                  · exfalso
                    have : i * capacity A lvl + r < j * capacity A lvl + r2 := by
                      calc i * capacity A lvl + r < (i + 1) * capacity A lvl := by
                            have hx : (i + 1) * capacity A lvl
                                = i * capacity A lvl + capacity A lvl := by ring
                            omega
                        _ ≤ j * capacity A lvl := Nat.mul_le_mul_right _ h
                        _ ≤ j * capacity A lvl + r2 := Nat.le_add_right _ _
                    omega
                  · exact h
                  · exfalso
                    have : j * capacity A lvl + r2 < i * capacity A lvl + r := by
                      calc j * capacity A lvl + r2 < (j + 1) * capacity A lvl := by
                            have hx : (j + 1) * capacity A lvl
                                = j * capacity A lvl + capacity A lvl := by ring
                            omega
                        _ ≤ i * capacity A lvl := Nat.mul_le_mul_right _ h
                        _ ≤ i * capacity A lvl + r := Nat.le_add_right _ _
                    omega
                exact hij hceq

end Node

end DuskMerkle

namespace DuskMerkle

/-- The level-chaining part of `Opening::verify`, separated from the final
root comparison: `none` = out-of-bounds panic, `some none` = early mismatch,
`some (some v)` = all levels matched, accumulating `v`. -/
def chainLevels {T : Type} {A : Nat} [DecidableEq T] (agg : Aggregate T A) :
    List (List T × Nat) → T → Option (Option T)
  | [], item => some (some item)
  | (level, pos) :: rest, item =>
      match level.get? pos with
      | none => none
      | some v =>
          if item = v then
            chainLevels agg rest (agg.aggregate (Opening.padLevel A agg.emptySubtree level))
          else some none

theorem verifyLevels_eq_chain {T : Type} {A : Nat} [DecidableEq T]
    (agg : Aggregate T A) (root : T) :
    ∀ (ls : List (List T × Nat)) (x : T),
      Opening.verifyLevels agg root ls x =
        match chainLevels agg ls x with
        | none => none
        | some none => some false
        | some (some v) => some (decide (root = v)) := by
  intro ls
  induction ls with
  | nil => intro x; rfl
  | cons lp rest ih =>
      intro x
      obtain ⟨level, pos⟩ := lp
      rw [Opening.verifyLevels, chainLevels]
      cases level.get? pos with
      | none => rfl
      | some v =>
          dsimp only
          by_cases hx : x = v
          · rw [if_pos hx, if_pos hx, ih]
          · rw [if_neg hx, if_neg hx]

theorem chainLevels_append {T : Type} {A : Nat} [DecidableEq T]
    (agg : Aggregate T A) :
    ∀ (l1 l2 : List (List T × Nat)) (x : T),
      chainLevels agg (l1 ++ l2) x =
        match chainLevels agg l1 x with
        | none => none
        | some none => some none
        | some (some v) => chainLevels agg l2 v := by
  intro l1
  induction l1 with
  | nil => intro l2 x; rfl
  | cons lp rest ih =>
      intro l2 x
      obtain ⟨level, pos⟩ := lp
      rw [List.cons_append, chainLevels, chainLevels]
      cases level.get? pos with
      | none => rfl
      | some v =>
          dsimp only
          by_cases hx : x = v
          · rw [if_pos hx, if_pos hx, ih]
          · rw [if_neg hx, if_neg hx]

theorem padLevel_eq_self {T : Type} {A : Nat} (e : T) (level : List T)
    (h : level.length = A) : Opening.padLevel A e level = level := by
  unfold Opening.padLevel
  rw [← h]
  simp

namespace Node

theorem new_children {T : Type} (A : Nat) :
    (new T A).children = List.replicate A none := rfl

theorem WF_new_succ {T : Type} {A lvl : Nat} : WF A (lvl + 1) (new T A) := by
  rw [WF_succ]
  refine ⟨by simp [new_children], ?_⟩
  intro m hm
  rw [new_children] at hm
  exact absurd (List.eq_of_mem_replicate hm) (by simp)

theorem leafPositions_new_succ {T : Type} {A lvl : Nat} :
    leafPositions A (lvl + 1) (new T A) = [] := by
  show ((new T A).children.enum.map _).flatten = _
  rw [List.eq_nil_iff_forall_not_mem]
  intro q hq
  rw [List.mem_flatten] at hq
  obtain ⟨l, hl, hql⟩ := hq
  rw [List.mem_map] at hl
  obtain ⟨⟨i, c⟩, hp, rfl⟩ := hl
  rw [List.mem_enum_iff_get?] at hp
  have hc : c ∈ (new T A).children := List.get?_mem hp
  rw [new_children] at hc
  have := List.eq_of_mem_replicate hc
  subst this
  simp at hql

theorem Coh_new {T : Type} {A : Nat} (agg : Aggregate T A) (lvl : Nat) :
    Coh agg lvl (new T A) := by
  cases lvl with
  | zero => trivial
  | succ lvl =>
      constructor
      · intro v hv
        simp [new, itemCache] at hv
      · intro m hm
        rw [new_children] at hm
        exact absurd (List.eq_of_mem_replicate hm) (by simp)

theorem insert_oob {T : Type} {A : Nat} (x : T) {lvl pos : Nat} {n : Node T}
    (hA : 0 < A) (hlvl : 1 ≤ lvl) (hlen : n.children.length = A)
    (hpos : capacity A lvl ≤ pos) : insert A x lvl pos n = none := by
  cases lvl with
  | zero => omega
  | succ lvl =>
      have hci : A ≤ pos / capacity A lvl := by
        rw [Nat.le_div_iff_mul_le (capacity_pos hA lvl)]
        calc A * capacity A lvl = capacity A (lvl + 1) := by
              show A * A ^ lvl = A ^ (lvl + 1)
              rw [pow_succ]; ring
          _ ≤ pos := hpos
      have hget : n.children.get? (pos / capacity A lvl) = none := by
        rw [List.get?_eq_none]
        omega
      rw [insert]
      simp only [childLocation, hget]
      rfl

end Node

end DuskMerkle

namespace DuskMerkle

namespace Node

theorem insert_ok {T : Type} {A : Nat} (hA : 0 < A) (x : T) :
    ∀ (lvl pos : Nat) (n : Node T), (WF A lvl n ∨ n = new T A) →
      pos < capacity A lvl →
      ∃ n', insert A x lvl pos n = some n' ∧ WF A lvl n' ∧
        lookup A lvl pos n' = some x ∧
        (WF A lvl n → ∀ q, q ∈ leafPositions A lvl n' ↔
          (q = pos ∨ q ∈ leafPositions A lvl n)) ∧
        (n = new T A → ∀ q, q ∈ leafPositions A lvl n' ↔ q = pos) ∧
        (∀ agg : Aggregate T A, Coh agg lvl n → Coh agg lvl n') ∧
        (∀ (agg : Aggregate T A) [DecidableEq T],
          ∃ rows, fillOpening agg lvl pos n' = some rows ∧
            chainLevels agg rows.reverse x = some (some (itemVal agg lvl n'))) := by
  intro lvl
  induction lvl with
  | zero =>
      intro pos n hwfi hpos
      have hpos0 : pos = 0 := by
        have : capacity A 0 = 1 := by simp [capacity]
        omega
      subst hpos0
      refine ⟨.mk (some x) n.children, rfl, ?_, rfl, ?_, ?_, ?_, ?_⟩
      · rcases hwfi with h | h
        · exact ⟨h.1, h.2.1, rfl⟩
        · subst h
          exact ⟨by simp [new_children], by simp [new_children], rfl⟩
      · intro _ q
        simp [leafPositions]
      · intro _ q
        simp [leafPositions]
      · intro agg _
        trivial
      · intro agg inst
        exact ⟨[], rfl, rfl⟩
  | succ lvl ih =>
      intro pos n hwfi hpos
      have hlen : n.children.length = A := by
        rcases hwfi with h | h
        · exact h.children_length
        · subst h; simp [new_children]
      have hcap : 0 < capacity A lvl := capacity_pos hA lvl
      have hcapsucc : capacity A (lvl + 1) = A * capacity A lvl := by
        show A ^ (lvl + 1) = A * A ^ lvl
        rw [pow_succ]; ring
      set ci := pos / capacity A lvl with hci_def
      set cpos := pos % capacity A lvl with hcpos_def
      have hci : ci < A := by
        rw [hci_def, Nat.div_lt_iff_lt_mul hcap]
        omega
      have hcpos : cpos < capacity A lvl := Nat.mod_lt _ hcap
      have hcilen : ci < n.children.length := by omega
      obtain ⟨slot, hget⟩ : ∃ s, n.children.get? ci = some s :=
        ⟨n.children.get ⟨ci, hcilen⟩, List.get?_eq_get hcilen⟩
      have hget' : n.children[ci]? = some slot := by
        rw [← List.get?_eq_getElem?]; exact hget
      have hq_eq : ci * capacity A lvl + cpos = pos := by
        rw [hci_def, hcpos_def, Nat.mul_comm]
        exact Nat.div_add_mod pos (capacity A lvl)
      have hwfic : WF A lvl (slot.getD (new T A)) ∨ slot.getD (new T A) = new T A := by
        cases hslot : slot with
        | none => right; rfl
        | some m =>
            rcases hwfi with h | h
            · left
              have hmem : some m ∈ n.children :=
                List.get?_mem (hslot ▸ hget)
              exact ((WF_succ.1 h).2 m hmem).1
            · exfalso
              have hnone : n.children.get? ci = some none := by
                subst h
                rw [new_children, List.get?_eq_get (by simpa using hci)]
                simp [List.get_replicate]
              rw [hget, hslot] at hnone
              simp at hnone
      obtain ⟨n'', hins'', hwf'', hlook'', hd1'', hd2'', hcoh'', hchain''⟩ :=
        ih cpos (slot.getD (new T A)) hwfic hcpos
      have hcpos_mem : cpos ∈ leafPositions A lvl n'' := by
        cases hslot : slot with
        | none =>
            exact (hd2'' (by rw [hslot]; rfl) cpos).2 rfl
        | some m =>
            have h := hwfic
            rw [hslot] at h
            rcases h with h | h
            · exact (hd1'' (by rw [hslot]; exact h) cpos).2 (Or.inl rfl)
            · exact (hd2'' (by rw [hslot]; exact h) cpos).2 rfl
      have hgetset : (n.children.set ci (some n'')).get? ci = some (some n'') := by
        rw [List.get?_set_eq, hget]
        rfl
      have hgetset' : (n.children.set ci (some n''))[ci]? = some (some n'') := by
        rw [← List.get?_eq_getElem?]; exact hgetset
      refine ⟨.mk none (n.children.set ci (some n'')), ?_, ?_, ?_, ?_, ?_, ?_, ?_⟩
      · rw [insert]
        simp only [childLocation, ← hci_def, ← hcpos_def]
        simp [hget', hget, hins'']
      · rw [WF_succ]
        refine ⟨by simp [hlen], ?_⟩
        intro m hm
        rcases List.mem_or_eq_of_mem_set hm with hold | hnew
        · rcases hwfi with h | h
          · exact (WF_succ.1 h).2 m hold
          · exfalso
            subst h
            rw [new_children] at hold
            exact absurd (List.eq_of_mem_replicate hold) (by simp)
        · injection hnew with hnew
          subst hnew
          exact ⟨hwf'', List.ne_nil_of_mem hcpos_mem⟩
      · rw [lookup]
        simp only [childLocation, ← hci_def, ← hcpos_def, children_mk]
        simp [hgetset', hgetset, hlook'']
      · -- d1: well-formed pre-tree
        intro hwf q
        have hwfslot : ∀ m, slot = some m → WF A lvl m := by
          intro m hslot
          have hmem : some m ∈ n.children :=
            List.get?_mem (hslot ▸ hget)
          exact ((WF_succ.1 hwf).2 m hmem).1
        constructor
        · intro hq
          rw [mem_leafPositions_succ] at hq
          obtain ⟨i, m, r, hgeti, hr, rfl⟩ := hq
          simp only [children_mk] at hgeti
          by_cases hieq : i = ci
          · subst hieq
            rw [hgetset] at hgeti
            injection hgeti with hgeti
            injection hgeti with hgeti
            subst hgeti
            cases hslot : slot with
            | none =>
                have := (hd2'' (by rw [hslot]; rfl) r).1 hr
                subst this
                exact Or.inl hq_eq
            | some mold =>
                have hmold := hwfslot mold hslot
                rcases (hd1'' (by rw [hslot]; exact hmold) r).1 hr with h | h
                · subst h
                  exact Or.inl hq_eq
                · right
                  rw [mem_leafPositions_succ]
                  refine ⟨ci, mold, r, ?_, by rw [hslot] at h; exact h, rfl⟩
                  rw [hget, hslot]
          · right
            rw [mem_leafPositions_succ]
            refine ⟨i, m, r, ?_, hr, rfl⟩
            rw [← hgeti, List.get?_set_ne _ _ (fun h => hieq h.symm)]
        · rintro (rfl | hq)
          · rw [mem_leafPositions_succ]
            exact ⟨ci, n'', cpos, by simpa using hgetset, hcpos_mem, hq_eq.symm⟩
          · rw [mem_leafPositions_succ] at hq ⊢
            obtain ⟨i, m, r, hgeti, hr, rfl⟩ := hq
            by_cases hieq : i = ci
            · subst hieq
              rw [hget] at hgeti
              injection hgeti with hgeti
              have hslot : slot = some m := hgeti
              have hmold := hwfslot m hslot
              refine ⟨ci, n'', r, by simpa using hgetset, ?_, rfl⟩
              refine (hd1'' (by rw [hslot]; exact hmold) r).2 (Or.inr ?_)
              rw [hslot]
              exact hr
            · refine ⟨i, m, r, ?_, hr, rfl⟩
              simp only [children_mk]
              rw [List.get?_set_ne _ _ (fun h => hieq h.symm)]
              exact hgeti
      · -- d2: fresh pre-tree
        intro hn q
        have hslotnone : slot = none := by
          have hnone : n.children.get? ci = some none := by
            subst hn
            rw [new_children, List.get?_eq_get (by simpa using hci)]
            simp [List.get_replicate]
          rw [hget] at hnone
          exact Option.some.inj hnone
        constructor
        · intro hq
          rw [mem_leafPositions_succ] at hq
          obtain ⟨i, m, r, hgeti, hr, rfl⟩ := hq
          simp only [children_mk] at hgeti
          by_cases hieq : i = ci
          · subst hieq
            rw [hgetset] at hgeti
            injection hgeti with hgeti
            injection hgeti with hgeti
            subst hgeti
            have := (hd2'' (by rw [hslotnone]; rfl) r).1 hr
            subst this
            omega
          · exfalso
            rw [List.get?_set_ne _ _ (fun h => hieq h.symm)] at hgeti
            have hmem : some m ∈ n.children := List.get?_mem hgeti
            subst hn
            rw [new_children] at hmem
            exact absurd (List.eq_of_mem_replicate hmem) (by simp)
        · rintro rfl
          rw [mem_leafPositions_succ]
          exact ⟨ci, n'', cpos, by simpa using hgetset, hcpos_mem, hq_eq.symm⟩
      · -- cache coherence is preserved
        intro agg hcoh
        constructor
        · intro v hv
          exact absurd hv (by simp)
        · intro m hm
          rcases List.mem_or_eq_of_mem_set hm with hold | hnew
          · exact hcoh.2 m hold
          · injection hnew with hnew
            subst hnew
            refine hcoh'' agg ?_
            cases hslot : slot with
            | none => exact Coh_new agg lvl
            | some mold =>
                have hmem : some mold ∈ n.children :=
                  List.get?_mem (hslot ▸ hget)
                exact hcoh.2 mold hmem
      · -- the opening chain recomputes the fresh path
        intro agg inst
        obtain ⟨rows_c, hfo'', hch''⟩ := hchain'' agg
        set f : Option (Node T) → T := fun s =>
          match s with
          | none => agg.emptySubtree
          | some m => itemVal agg lvl m with hf_def
        set row := (n.children.set ci (some n'')).map f with hrow_def
        refine ⟨(row, ci) :: rows_c, ?_, ?_⟩
        · rw [fillOpening]
          simp only [childLocation, ← hci_def, ← hcpos_def, children_mk]
          rw [hgetset]
          simp only [optionBind_some]
          rw [hfo'']
          simp only [optionBind_some]
        · rw [List.reverse_cons, chainLevels_append, hch'']
          dsimp only
          have hrowget : row.get? ci = some (itemVal agg lvl n'') := by
            rw [hrow_def, List.get?_map, hgetset]
            rfl
          rw [chainLevels.eq_def]
          dsimp only
          rw [hrowget]
          dsimp only
          rw [if_pos rfl]
          have hrowlen : row.length = A := by
            rw [hrow_def]
            simp [hlen]
          rw [padLevel_eq_self _ _ hrowlen, chainLevels]

          have hnotall : ((n.children.set ci (some n'')).all Option.isNone) = false := by
            rw [List.all_eq_false]
            exact ⟨some n'', List.get?_mem hgetset, by simp⟩
          rw [itemVal, hnotall]
          simp
          rw [hrow_def, List.map_set]

end Node

end DuskMerkle

namespace DuskMerkle

namespace Node

theorem decomp_div {c i r : Nat} (hc : 0 < c) (hr : r < c) :
    (i * c + r) / c = i ∧ (i * c + r) % c = r := by
  constructor
  · rw [Nat.mul_comm, Nat.mul_add_div hc, Nat.div_eq_of_lt hr]
    omega
  · rw [Nat.mul_comm, Nat.mul_add_mod, Nat.mod_eq_of_lt hr]

theorem lp_ne_nil_iff_any {T : Type} {A lvl : Nat} (hA : 0 < A) {n : Node T}
    (hwf : WF A (lvl + 1) n) :
    leafPositions A (lvl + 1) n ≠ [] ↔ n.children.any Option.isSome = true := by
  constructor
  · intro hne
    obtain ⟨q, hq⟩ := List.exists_mem_of_ne_nil _ hne
    rw [mem_leafPositions_succ] at hq
    obtain ⟨i, m, r, hget, hr, rfl⟩ := hq
    rw [List.any_eq_true]
    exact ⟨some m, List.get?_mem hget, by simp⟩
  · intro hany hnil
    rw [List.any_eq_true] at hany
    obtain ⟨c, hc, hcs⟩ := hany
    cases c with
    | none => simp at hcs
    | some m =>
        obtain ⟨i, hgeti⟩ := List.get?_of_mem hc
        have hm := (WF_succ.1 hwf).2 m hc
        obtain ⟨r, hr⟩ := List.exists_mem_of_ne_nil _ hm.2
        have : i * capacity A lvl + r ∈ leafPositions A (lvl + 1) n := by
          rw [mem_leafPositions_succ]
          exact ⟨i, m, r, hgeti, hr, rfl⟩
        rw [hnil] at this
        simp at this

theorem remove_ok {T : Type} {A : Nat} (hA : 0 < A) :
    ∀ (lvl pos : Nat) (n : Node T), WF A (lvl + 1) n →
      pos ∈ leafPositions A (lvl + 1) n →
      ∃ v has n', remove A (lvl + 1) pos n = some (v, has, n') ∧
        lookup A (lvl + 1) pos n = some v ∧
        WF A (lvl + 1) n' ∧
        (∀ q, q ∈ leafPositions A (lvl + 1) n' ↔
          (q ∈ leafPositions A (lvl + 1) n ∧ q ≠ pos)) ∧
        (has = true ↔ leafPositions A (lvl + 1) n' ≠ []) ∧
        (∀ agg : Aggregate T A, Coh agg (lvl + 1) n → Coh agg (lvl + 1) n') := by
  intro lvl
  induction lvl with
  | zero =>
      intro pos n hwf hpos
      have hcap : capacity A 0 = 1 := by simp [capacity]
      rw [mem_leafPositions_succ] at hpos
      obtain ⟨i, m, r, hget, hr, rfl⟩ := hpos
      have hm := (WF_succ.1 hwf).2 m (List.get?_mem hget)
      have hr0 : r = 0 := by
        have := hm.1
        rw [WF_zero] at this
        simp [leafPositions] at hr
        exact hr
      subst hr0
      have hdd := decomp_div (c := capacity A 0) (by omega) (by omega) (i := i) (r := 0)
      obtain ⟨v, hv⟩ := Option.isSome_iff_exists.1 (hm.1.2.2)
      have hlp_m : leafPositions A 0 m = [0] := rfl
      refine ⟨v, (n.children.set i none).any Option.isSome,
        .mk none (n.children.set i none), ?_, ?_, ?_, ?_, ?_, ?_⟩
      · rw [remove]
        simp only [childLocation, hdd.1, hdd.2, hget]
        simp only [optionBind_some]
        rw [remove]
        simp [hv]
      · rw [lookup]
        simp only [childLocation, hdd.1, hdd.2, hget]
        simp only [optionBind_some]
        rw [lookup]
        exact hv
      · rw [WF_succ]
        refine ⟨by simp [hwf.children_length], ?_⟩
        intro m' hm'
        rcases List.mem_or_eq_of_mem_set hm' with hold | hnew
        · exact (WF_succ.1 hwf).2 m' hold
        · exact absurd hnew (by simp)
      · intro q
        constructor
        · intro hq
          rw [mem_leafPositions_succ] at hq
          obtain ⟨j, m', r', hgetj, hr', rfl⟩ := hq
          simp only [children_mk] at hgetj
          by_cases hji : j = i
          · subst hji
            rw [List.get?_set_eq, hget] at hgetj
            simp at hgetj
          · rw [List.get?_set_ne _ _ (fun h => hji h.symm)] at hgetj
            have hm' := (WF_succ.1 hwf).2 m' (List.get?_mem hgetj)
            have hlt' : r' < capacity A 0 :=
              leafPositions_lt hA 0 m' hm'.1 r' hr'
            constructor
            · rw [mem_leafPositions_succ]
              exact ⟨j, m', r', hgetj, hr', rfl⟩
            · intro heq
              have hd1 := decomp_div (c := capacity A 0) (by omega) hlt' (i := j) (r := r')
              have hd2 := decomp_div (c := capacity A 0) (by omega) (by omega : 0 < capacity A 0) (i := i) (r := 0)
              rw [heq] at hd1
              omega
        · rintro ⟨hq, hne⟩
          rw [mem_leafPositions_succ] at hq ⊢
          obtain ⟨j, m', r', hgetj, hr', rfl⟩ := hq
          by_cases hji : j = i
          · subst hji
            rw [hget] at hgetj
            injection hgetj with hgetj
            injection hgetj with hgetj
            subst hgetj
            have : r' = 0 := by simpa [leafPositions] using hr'
            subst this
            exact absurd rfl hne
          · refine ⟨j, m', r', ?_, hr', rfl⟩
            simp only [children_mk]
            rw [List.get?_set_ne _ _ (fun h => hji h.symm)]
            exact hgetj
      · have hwfn' : WF A (0 + 1) (Node.mk none (n.children.set i none)) := by
          rw [WF_succ]
          refine ⟨by simp [hwf.children_length], ?_⟩
          intro m' hm'
          rcases List.mem_or_eq_of_mem_set hm' with hold | hnew
          · exact (WF_succ.1 hwf).2 m' hold
          · exact absurd hnew (by simp)
        have := lp_ne_nil_iff_any hA hwfn'
        simp only [children_mk] at this
        exact this.symm
      · intro agg hcoh
        constructor
        · intro v' hv'
          exact absurd hv' (by simp)
        · intro m' hm'
          rcases List.mem_or_eq_of_mem_set hm' with hold | hnew
          · exact hcoh.2 m' hold
          · exact absurd hnew (by simp)
  | succ lvl ih =>
      intro pos n hwf hpos
      have hcap : 0 < capacity A (lvl + 1) := capacity_pos hA (lvl + 1)
      rw [mem_leafPositions_succ] at hpos
      obtain ⟨i, m, r, hget, hr, rfl⟩ := hpos
      have hm := (WF_succ.1 hwf).2 m (List.get?_mem hget)
      have hrlt : r < capacity A (lvl + 1) :=
        leafPositions_lt hA (lvl + 1) m hm.1 r hr
      have hdd := decomp_div (c := capacity A (lvl + 1)) hcap hrlt (i := i)
      obtain ⟨v, has'', m', hrem'', hlook'', hwf'', hiff'', hhas'', hcoh''⟩ :=
        ih r m hm.1 hr
      set cs := n.children.set i (if has'' then some m' else none) with hcs_def
      refine ⟨v, cs.any Option.isSome, .mk none cs, ?_, ?_, ?_, ?_, ?_, ?_⟩
      · rw [remove]
        simp only [childLocation, hdd.1, hdd.2, hget]
        simp only [optionBind_some]
        rw [hrem'']
        simp only [optionBind_some]
      · rw [lookup]
        simp only [childLocation, hdd.1, hdd.2, hget]
        simp only [optionBind_some]
        exact hlook''
      · rw [WF_succ]
        refine ⟨by simp [hcs_def, hwf.children_length], ?_⟩
        intro m2 hm2
        rw [hcs_def] at hm2
        rcases List.mem_or_eq_of_mem_set hm2 with hold | hnew
        · exact (WF_succ.1 hwf).2 m2 hold
        · cases hhv : has'' with
          | false => rw [hhv] at hnew; exact absurd hnew (by simp)
          | true =>
              rw [hhv] at hnew
              injection hnew with hnew
              subst hnew
              exact ⟨hwf'', (hhas''.1 hhv)⟩
      · intro q
        constructor
        · intro hq
          rw [mem_leafPositions_succ] at hq
          obtain ⟨j, m2, r2, hgetj, hr2, rfl⟩ := hq
          simp only [children_mk, hcs_def] at hgetj
          by_cases hji : j = i
          · subst hji
            have hsetget : (n.children.set j (if has'' then some m' else none)).get? j
                = some (if has'' then some m' else none) := by
              rw [List.get?_set_eq, hget]
              rfl
            rw [hsetget] at hgetj
            injection hgetj with hgetj
            cases hhv : has'' with
            | false => simp [hhv] at hgetj
            | true =>
                rw [hhv] at hgetj
                injection hgetj with hgetj
                subst hgetj
                obtain ⟨hr2m, hr2ne⟩ := (hiff'' r2).1 hr2
                constructor
                · rw [mem_leafPositions_succ]
                  exact ⟨j, m, r2, hget, hr2m, rfl⟩
                · intro heq
                  have hlt2 : r2 < capacity A (lvl + 1) :=
                    leafPositions_lt hA (lvl + 1) m hm.1 r2 hr2m
                  have hd2 := decomp_div (c := capacity A (lvl + 1)) hcap hlt2 (i := j)
                  rw [heq] at hd2
                  omega
          · rw [List.get?_set_ne _ _ (fun h => hji h.symm)] at hgetj
            have hm2 := (WF_succ.1 hwf).2 m2 (List.get?_mem hgetj)
            have hlt2 : r2 < capacity A (lvl + 1) :=
              leafPositions_lt hA (lvl + 1) m2 hm2.1 r2 hr2
            constructor
            · rw [mem_leafPositions_succ]
              exact ⟨j, m2, r2, hgetj, hr2, rfl⟩
            · intro heq
              have hd1 := decomp_div (c := capacity A (lvl + 1)) hcap hlt2 (i := j)
              rw [heq] at hd1
              omega
        · rintro ⟨hq, hne⟩
          rw [mem_leafPositions_succ] at hq ⊢
          obtain ⟨j, m2, r2, hgetj, hr2, rfl⟩ := hq
          by_cases hji : j = i
          · subst hji
            rw [hget] at hgetj
            injection hgetj with hgetj
            injection hgetj with hgetj
            subst hgetj
            have hr2ne : r2 ≠ r := by
              intro heq
              subst heq
              exact hne rfl
            have hr2m' : r2 ∈ leafPositions A (lvl + 1) m' :=
              (hiff'' r2).2 ⟨hr2, hr2ne⟩
            have hhv : has'' = true :=
              hhas''.2 (List.ne_nil_of_mem hr2m')
            refine ⟨j, m', r2, ?_, hr2m', rfl⟩
            simp only [children_mk, hcs_def]
            rw [List.get?_set_eq, hget, hhv]
            rfl
          · refine ⟨j, m2, r2, ?_, hr2, rfl⟩
            simp only [children_mk, hcs_def]
            rw [List.get?_set_ne _ _ (fun h => hji h.symm)]
            exact hgetj
      · have hwfn' : WF A (lvl + 1 + 1) (Node.mk none cs) := by
          rw [WF_succ]
          refine ⟨by simp [hcs_def, hwf.children_length], ?_⟩
          intro m2 hm2
          rw [children_mk, hcs_def] at hm2
          rcases List.mem_or_eq_of_mem_set hm2 with hold | hnew
          · exact (WF_succ.1 hwf).2 m2 hold
          · cases hhv : has'' with
            | false => rw [hhv] at hnew; exact absurd hnew (by simp)
            | true =>
                rw [hhv] at hnew
                injection hnew with hnew
                subst hnew
                exact ⟨hwf'', (hhas''.1 hhv)⟩
        have := lp_ne_nil_iff_any hA hwfn'
        simp only [children_mk] at this
        exact this.symm
      · intro agg hcoh
        constructor
        · intro v' hv'
          exact absurd hv' (by simp)
        · intro m2 hm2
          rw [children_mk, hcs_def] at hm2
          rcases List.mem_or_eq_of_mem_set hm2 with hold | hnew
          · exact hcoh.2 m2 hold
          · cases hhv : has'' with
            | false => rw [hhv] at hnew; exact absurd hnew (by simp)
            | true =>
                rw [hhv] at hnew
                injection hnew with hnew
                subst hnew
                exact hcoh'' agg (hcoh.2 m (List.get?_mem hget))

end Node

end DuskMerkle

namespace DuskMerkle

namespace Node

theorem itemVal_eq_specItem {T : Type} {A : Nat} (agg : Aggregate T A) :
    ∀ (lvl : Nat) (n : Node T), Coh agg lvl n →
      itemVal agg lvl n = specItem agg lvl n := by
  intro lvl
  induction lvl with
  | zero =>
      intro n _
      obtain ⟨i, cs⟩ := n
      cases i <;> rfl
  | succ lvl ih =>
      intro n hcoh
      obtain ⟨i, cs⟩ := n
      cases i with
      | some v => exact (hcoh.1 v rfl).symm ▸ rfl
      | none =>
          rw [itemVal, specItem]
          by_cases hall : cs.all Option.isNone
          · simp only [children_mk, hall, if_true]
          · simp only [children_mk, if_neg hall]
            congr 1
            apply List.map_congr_left
            intro c hc
            cases c with
            | none => rfl
            | some m => exact ih m (hcoh.2 m hc)

theorem fill_mem_iff {T : Type} {A : Nat} (agg : Aggregate T A) :
    ∀ (lvl : Nat) (n : Node T) (q : Nat),
      (q ∈ leafPositions A lvl (fillItem agg lvl n) ↔ q ∈ leafPositions A lvl n) := by
  intro lvl
  induction lvl with
  | zero =>
      intro n q
      obtain ⟨i, cs⟩ := n
      cases i <;> rfl
  | succ lvl ih =>
      intro n q
      obtain ⟨i, cs⟩ := n
      cases i with
      | some v => rfl
      | none =>
          rw [fillItem]
          rw [mem_leafPositions_succ, mem_leafPositions_succ]
          simp only [children_mk]
          constructor
          · rintro ⟨j, m, r, hget, hr, rfl⟩
            rw [List.get?_map] at hget
            cases hcs : cs.get? j with
            | none => rw [hcs] at hget; simp at hget
            | some c =>
                rw [hcs] at hget
                cases c with
                | none => simp at hget
                | some m0 =>
                    simp only [Option.map_some'] at hget
                    injection hget with hget
                    injection hget with hget
                    refine ⟨j, m0, r, hcs, ?_, rfl⟩
                    rw [← ih m0 r]
                    rw [hget]
                    exact hr
          · rintro ⟨j, m, r, hget, hr, rfl⟩
            refine ⟨j, fillItem agg lvl m, r, ?_, (ih m r).2 hr, rfl⟩
            rw [List.get?_map, hget]
            rfl

theorem WF_fill {T : Type} {A : Nat} (agg : Aggregate T A) :
    ∀ (lvl : Nat) (n : Node T), WF A lvl n → WF A lvl (fillItem agg lvl n) := by
  intro lvl
  induction lvl with
  | zero =>
      intro n hwf
      obtain ⟨i, cs⟩ := n
      cases i with
      | some v => exact hwf
      | none => exact ⟨hwf.1, hwf.2.1, rfl⟩
  | succ lvl ih =>
      intro n hwf
      obtain ⟨i, cs⟩ := n
      cases i with
      | some v => exact hwf
      | none =>
          rw [fillItem, WF_succ]
          simp only [children_mk]
          constructor
          · rw [List.length_map]
            exact hwf.children_length
          · intro m hm
            rw [List.mem_map] at hm
            obtain ⟨c, hc, hceq⟩ := hm
            cases c with
            | none => simp at hceq
            | some m0 =>
                simp only [Option.map_some'] at hceq
                injection hceq with hceq
                subst hceq
                have h0 := (WF_succ.1 hwf).2 m0 hc
                refine ⟨ih m0 h0.1, ?_⟩
                intro hnil
                obtain ⟨r, hrm⟩ := List.exists_mem_of_ne_nil _ h0.2
                have := (fill_mem_iff agg lvl m0 r).2 hrm
                rw [hnil] at this
                simp at this

theorem specItem_fill {T : Type} {A : Nat} (agg : Aggregate T A) :
    ∀ (lvl : Nat) (n : Node T),
      specItem agg lvl (fillItem agg lvl n) = specItem agg lvl n := by
  intro lvl
  induction lvl with
  | zero =>
      intro n
      obtain ⟨i, cs⟩ := n
      cases i <;> rfl
  | succ lvl ih =>
      intro n
      obtain ⟨i, cs⟩ := n
      cases i with
      | some v => rfl
      | none =>
          rw [fillItem, specItem, specItem]
          simp only [children_mk]
          have hall : ((cs.map (Option.map (fillItem agg lvl))).all Option.isNone)
              = cs.all Option.isNone := by
            rw [List.all_map]
            congr 1
            funext c
            cases c <;> rfl
          rw [hall]
          by_cases h : cs.all Option.isNone
          · rw [if_pos h, if_pos h]
          · rw [if_neg h, if_neg h]
            congr 1
            rw [List.map_map]
            apply List.map_congr_left
            intro c _
            cases c with
            | none => rfl
            | some m => exact ih m

theorem Coh_fill {T : Type} {A : Nat} (agg : Aggregate T A) :
    ∀ (lvl : Nat) (n : Node T), Coh agg lvl n → Coh agg lvl (fillItem agg lvl n) := by
  intro lvl
  induction lvl with
  | zero => intro n _; trivial
  | succ lvl ih =>
      intro n hcoh
      obtain ⟨i, cs⟩ := n
      cases i with
      | some v => exact hcoh
      | none =>
          rw [fillItem]
          constructor
          · intro v hv
            simp only [itemCache_mk] at hv
            injection hv with hv
            subst hv
            rw [itemVal_eq_specItem agg (lvl + 1) (.mk none cs) hcoh]
            have h := specItem_fill agg (lvl + 1) (Node.mk none cs)
            rw [fillItem] at h
            exact h.symm
          · intro m hm
            simp only [children_mk] at hm
            rw [List.mem_map] at hm
            obtain ⟨c, hc, hceq⟩ := hm
            cases c with
            | none => simp at hceq
            | some m0 =>
                simp only [Option.map_some'] at hceq
                injection hceq with hceq
                subst hceq
                exact ih m0 (hcoh.2 m0 hc)

end Node

end DuskMerkle

namespace DuskMerkle

namespace Node

theorem lp_eq_nil_of_all_none {T : Type} {A lvl : Nat} {n : Node T}
    (h : n.children.all Option.isNone) : leafPositions A (lvl + 1) n = [] := by
  rw [List.eq_nil_iff_forall_not_mem]
  intro q hq
  rw [mem_leafPositions_succ] at hq
  obtain ⟨i, m, r, hget, _, _⟩ := hq
  rw [List.all_eq_true] at h
  have := h (some m) (List.get?_mem hget)
  simp at this

theorem specItem_eq_claim {T : Type} {A : Nat} (agg : Aggregate T A) :
    ∀ (lvl : Nat) (n : Node T), WF A lvl n → leafPositions A lvl n ≠ [] →
      specItem agg lvl n = specItemClaim agg lvl n := by
  intro lvl
  induction lvl with
  | zero => intro n _ _; rfl
  | succ lvl ih =>
      intro n hwf hne
      rw [specItem, specItemClaim]
      have hall : ¬(n.children.all Option.isNone) := by
        intro h
        exact hne (lp_eq_nil_of_all_none h)
      rw [if_neg hall]
      congr 1
      apply List.map_congr_left
      intro c hc
      cases c with
      | none => rfl
      | some m =>
          have hm := (WF_succ.1 hwf).2 m hc
          exact ih m hm.1 hm.2

end Node

namespace Tree

theorem reachable_inv {T : Type} {A : Nat} (agg : Aggregate T A) (H : Nat)
    (hA : 0 < A) (hH : 0 < H) {t : Tree T} (ht : Reachable agg H t) :
    Inv agg H t := by
  obtain ⟨H', rfl⟩ : ∃ H', H = H' + 1 := ⟨H - 1, by omega⟩
  induction ht with
  | base =>
      refine ⟨Node.WF_new_succ, Node.Coh_new agg _, ?_⟩
      show (Node.leafPositions A (H' + 1) (Node.new T A)).toFinset = ∅
      rw [Node.leafPositions_new_succ]
      rfl
  | ins ht hs ih =>
      rename_i t t' p x
      obtain ⟨hwf, hcoh, hpos⟩ := ih
      unfold Tree.insert at hs
      have hlt : p < Node.capacity A (H' + 1) := by
        by_contra hge
        rw [Node.insert_oob x hA (by omega) hwf.children_length (by omega)] at hs
        exact Option.noConfusion hs
      obtain ⟨n', hins, hwf', hlook', hd1', _, hcoh', _⟩ :=
        Node.insert_ok hA x (H' + 1) p t.root (Or.inl hwf) hlt
      rw [hins] at hs
      simp only [optionBind_some] at hs
      injection hs with hs
      subst hs
      refine ⟨hwf', hcoh' agg hcoh, ?_⟩
      show (Node.leafPositions A (H' + 1) n').toFinset = Insert.insert p t.positions
      rw [← hpos]
      ext q
      simp only [List.mem_toFinset, Finset.mem_insert]
      exact hd1' hwf q
  | rem ht hs ih =>
      rename_i t t' p r
      obtain ⟨hwf, hcoh, hpos⟩ := ih
      unfold Tree.remove at hs
      by_cases hmem : p ∈ t.positions
      · rw [if_pos hmem] at hs
        have hplp : p ∈ Node.leafPositions A (H' + 1) t.root := by
          rw [← List.mem_toFinset, hpos]
          exact hmem
        obtain ⟨v, has, n', hrem, hlook, hwf', hiff', hhas', hcoh'⟩ :=
          Node.remove_ok hA H' p t.root hwf hplp
        rw [hrem] at hs
        simp only [optionBind_some] at hs
        injection hs with hs
        have ht' : t' = ⟨n', t.positions.erase p⟩ := (congrArg Prod.snd hs).symm
        subst ht'
        refine ⟨hwf', hcoh' agg hcoh, ?_⟩
        show (Node.leafPositions A (H' + 1) n').toFinset = t.positions.erase p
        rw [← hpos]
        ext q
        simp only [List.mem_toFinset, Finset.mem_erase]
        rw [hiff' q]
        tauto
      · rw [if_neg hmem] at hs
        injection hs with hs
        have ht' : t' = t := (congrArg Prod.snd hs).symm
        subst ht'
        exact ⟨hwf, hcoh, hpos⟩
  | read ht ih =>
      rename_i t
      obtain ⟨hwf, hcoh, hpos⟩ := ih
      refine ⟨Node.WF_fill agg _ _ hwf, Node.Coh_fill agg _ _ hcoh, ?_⟩
      show (Node.leafPositions A (H' + 1) (Node.fillItem agg (H' + 1) t.root)).toFinset
          = t.positions
      rw [← hpos]
      ext q
      simp only [List.mem_toFinset]
      exact Node.fill_mem_iff agg (H' + 1) t.root q

end Tree

end DuskMerkle

namespace DuskMerkle

theorem zip_map_fst_snd_pairs {α β : Type} :
    ∀ (l : List (α × β)), (l.map Prod.fst).zip (l.map Prod.snd) = l := by
  intro l
  induction l with
  | nil => rfl
  | cons p l ih => simp [ih]

/-! ## Claim C1: membership round-trip -/

/-- **C1.**  After inserting a value at any in-range position of any
reachable tree: the tree contains the position, `opening` returns a proof,
and verifying that proof against the inserted value succeeds. -/
theorem C1_membership_roundtrip {T : Type} [DecidableEq T] {A : Nat}
    (agg : Aggregate T A) (H p : Nat) (x : T) (t : Tree T)
    (hH : 0 < H) (hA : 0 < A) (ht : Tree.Reachable agg H t)
    (hp : p < Tree.cap H A) :
    ∃ t', Tree.insert H A p x t = some t' ∧
      Tree.contains p t' = true ∧
      ∃ o t2, Tree.opening agg H p t' = some (some o, t2) ∧
        Opening.verify agg o x = some true := by
  obtain ⟨hwf, hcoh, hpos⟩ := Tree.reachable_inv agg H hA hH ht
  obtain ⟨n', hins, hwf', hlook', hd1', _, _, hchain'⟩ :=
    Node.insert_ok hA x H p t.root (Or.inl hwf) hp
  refine ⟨⟨n', Insert.insert p t.positions⟩, ?_, ?_, ?_⟩
  · unfold Tree.insert
    rw [hins]
    rfl
  · simp [Tree.contains]
  · obtain ⟨rows, hfo, hch⟩ := hchain' agg
    have hmem : p ∈ (Insert.insert p t.positions : Finset Nat) :=
      Finset.mem_insert_self p _
    refine ⟨⟨Tree.rootItem agg H ⟨n', Insert.insert p t.positions⟩,
      rows.map Prod.fst, rows.map Prod.snd⟩,
      Tree.readRoot agg H ⟨n', Insert.insert p t.positions⟩, ?_, ?_⟩
    · unfold Tree.opening
      rw [if_pos hmem]
      show (Option.bind (fillOpening agg H p n') _) = _
      rw [hfo]
      rfl
    · unfold Opening.verify
      show Opening.verifyLevels agg _ (((rows.map Prod.fst).zip (rows.map Prod.snd)).reverse) x
        = some true
      rw [zip_map_fst_snd_pairs, verifyLevels_eq_chain, hch]
      show some (decide (Tree.rootItem agg H _ = Node.itemVal agg H n')) = some true
      show some (decide (Node.itemVal agg H n' = Node.itemVal agg H n')) = some true
      simp

theorem C1_membership_roundtrip_witness :
    0 < 1 ∧ 0 < 1 ∧ Tree.Reachable sumAgg1 1 (Tree.new Nat 1) ∧ 0 < Tree.cap 1 1 ∧
    ∃ t', Tree.insert 1 1 0 42 (Tree.new Nat 1) = some t' ∧
      Tree.contains 0 t' = true ∧
      ∃ o t2, Tree.opening sumAgg1 1 0 t' = some (some o, t2) ∧
        Opening.verify sumAgg1 o 42 = some true := by
  refine ⟨Nat.one_pos, Nat.one_pos, Tree.Reachable.base, by decide, ?_⟩
  exact C1_membership_roundtrip sumAgg1 1 0 42 (Tree.new Nat 1) Nat.one_pos
    Nat.one_pos Tree.Reachable.base (by decide)

end DuskMerkle

namespace DuskMerkle

/-! ## Claims C2, C6, C7 -/

/-- **C2 (amended).**  For every reachable tree the memoized `root()` value
equals the naive recursive aggregation of the stored leaves, where an
internal node with no present child contributes `EMPTY_SUBTREE` itself (the
cache never yields a stale value); and on every *nonempty* reachable tree
this agrees with the claim's wording, in which an internal node's item is
always the aggregate of its children's items with `EMPTY_SUBTREE`
substituted for absent children. -/
theorem C2_cache_coherence {T : Type} {A : Nat} (agg : Aggregate T A)
    (H : Nat) (t : Tree T) (hH : 0 < H) (hA : 0 < A)
    (ht : Tree.Reachable agg H t) :
    Tree.rootItem agg H t = Node.specItem agg H t.root ∧
      (t.positions.Nonempty →
        Node.specItem agg H t.root = Node.specItemClaim agg H t.root) := by
  obtain ⟨hwf, hcoh, hpos⟩ := Tree.reachable_inv agg H hA hH ht
  refine ⟨Node.itemVal_eq_specItem agg H t.root hcoh, ?_⟩
  intro hne
  apply Node.specItem_eq_claim agg H t.root hwf
  intro hnil
  rw [← hpos] at hne
  obtain ⟨q, hq⟩ := hne
  rw [List.mem_toFinset, hnil] at hq
  simp at hq

theorem C2_cache_coherence_witness :
    0 < 1 ∧ 0 < 1 ∧
    ∃ t', Tree.insert 1 1 0 42 (Tree.new Nat 1) = some t' ∧
      Tree.Reachable sumAgg1 1 t' ∧
      Tree.rootItem sumAgg1 1 t' = Node.specItem sumAgg1 1 t'.root ∧
      (t'.positions.Nonempty →
        Node.specItem sumAgg1 1 t'.root = Node.specItemClaim sumAgg1 1 t'.root) := by
  have hins : Tree.insert 1 1 0 42 (Tree.new Nat 1) =
      some ⟨Node.mk none [some (Node.mk (some 42) [none])], {0}⟩ := rfl
  have hreach : Tree.Reachable sumAgg1 1
      (⟨Node.mk none [some (Node.mk (some 42) [none])], {0}⟩ : Tree Nat) :=
    Tree.Reachable.ins Tree.Reachable.base hins
  exact ⟨Nat.one_pos, Nat.one_pos, _, hins, hreach,
    C2_cache_coherence sumAgg1 1 _ Nat.one_pos Nat.one_pos hreach⟩

/-- **C6 (amended).**  On a reachable tree, `insert` at a position at or
beyond the capacity `A^H` panics (the out-of-bounds child index), never
wrapping or clamping; `remove` at such a position does *not* panic: the
positions-set test fails first, so it returns the "no value" result with the
tree unchanged. -/
theorem C6_out_of_range {T : Type} {A : Nat} (agg : Aggregate T A)
    (H p : Nat) (t : Tree T) (hH : 0 < H) (hA : 0 < A)
    (ht : Tree.Reachable agg H t) (hp : Tree.cap H A ≤ p) :
    (∀ x : T, Tree.insert H A p x t = none) ∧
      Tree.remove H A p t = some (none, t) := by
  obtain ⟨hwf, _, hpos⟩ := Tree.reachable_inv agg H hA hH ht
  constructor
  · intro x
    unfold Tree.insert
    rw [Node.insert_oob x hA (by omega) hwf.children_length hp]
    rfl
  · unfold Tree.remove
    rw [if_neg ?_]
    intro hmem
    rw [← hpos, List.mem_toFinset] at hmem
    have := Node.leafPositions_lt hA H t.root hwf p hmem
    have : p < Tree.cap H A := this
    omega

theorem C6_out_of_range_witness :
    0 < 1 ∧ 0 < 1 ∧ Tree.Reachable sumAgg1 1 (Tree.new Nat 1) ∧
    Tree.cap 1 1 ≤ 5 ∧
    (∀ x : Nat, Tree.insert 1 1 5 x (Tree.new Nat 1) = none) ∧
    Tree.remove 1 1 5 (Tree.new Nat 1) = some (none, Tree.new Nat 1) := by
  refine ⟨Nat.one_pos, Nat.one_pos, Tree.Reachable.base, by decide, ?_⟩
  exact C6_out_of_range sumAgg1 1 5 (Tree.new Nat 1) Nat.one_pos Nat.one_pos
    Tree.Reachable.base (by decide)

/-- **C7.**  On any reachable tree, `remove(p)` immediately after
`insert(p, x)` succeeds and returns `Some(x)`, and a second `remove(p)`
immediately afterwards returns `None` (with the tree unchanged). -/
theorem C7_insert_remove_roundtrip {T : Type} {A : Nat} (agg : Aggregate T A)
    (H p : Nat) (x : T) (t : Tree T) (hH : 0 < H) (hA : 0 < A)
    (ht : Tree.Reachable agg H t) (hp : p < Tree.cap H A) :
    ∃ t', Tree.insert H A p x t = some t' ∧
      ∃ t2, Tree.remove H A p t' = some (some x, t2) ∧
        Tree.remove H A p t2 = some (none, t2) := by
  obtain ⟨hwf, hcoh, hpos⟩ := Tree.reachable_inv agg H hA hH ht
  obtain ⟨n', hins, hwf', hlook', hd1', _, _, _⟩ :=
    Node.insert_ok hA x H p t.root (Or.inl hwf) hp
  obtain ⟨H', rfl⟩ : ∃ H', H = H' + 1 := ⟨H - 1, by omega⟩
  have hplp : p ∈ Node.leafPositions A (H' + 1) n' := (hd1' hwf p).2 (Or.inl rfl)
  obtain ⟨v, has, n2, hrem, hlook2, hwf2, hiff2, hhas2, hcoh2⟩ :=
    Node.remove_ok hA H' p n' hwf' hplp
  have hvx : v = x := by
    rw [hlook'] at hlook2
    exact (Option.some.inj hlook2).symm
  subst hvx
  refine ⟨⟨n', Insert.insert p t.positions⟩, ?_, ?_⟩
  · unfold Tree.insert
    rw [hins]
    rfl
  · refine ⟨⟨n2, (Insert.insert p t.positions : Finset Nat).erase p⟩, ?_, ?_⟩
    · unfold Tree.remove
      rw [if_pos (Finset.mem_insert_self p _)]
      show (Option.bind (Node.remove A (H' + 1) p n') _) = _
      rw [hrem]
      rfl
    · unfold Tree.remove
      rw [if_neg (Finset.not_mem_erase p _)]

theorem C7_insert_remove_roundtrip_witness :
    0 < 1 ∧ 0 < 1 ∧ Tree.Reachable sumAgg1 1 (Tree.new Nat 1) ∧ 0 < Tree.cap 1 1 ∧
    ∃ t', Tree.insert 1 1 0 42 (Tree.new Nat 1) = some t' ∧
      ∃ t2, Tree.remove 1 1 0 t' = some (some 42, t2) ∧
        Tree.remove 1 1 0 t2 = some (none, t2) := by
  refine ⟨Nat.one_pos, Nat.one_pos, Tree.Reachable.base, by decide, ?_⟩
  exact C7_insert_remove_roundtrip sumAgg1 1 0 42 (Tree.new Nat 1) Nat.one_pos
    Nat.one_pos Tree.Reachable.base (by decide)

end DuskMerkle

namespace DuskMerkle

/-! ## Walk machine invariants (claim C3) -/

/-- A walk level-state suffix in its initial/reset configuration: every
interior level's path is unset (its cursor is rescanned from 0 on entry) and
the leaf level's cursor is 0. -/
def Ready {T : Type} : WalkState T → Prop
  | [] => True
  | [(_, i)] => i = 0
  | (pc, _) :: rest => pc = none ∧ Ready rest

/-- The simulation relation: the state suffix `s` (of length `lvl`)
represents the list `L` of leaf items the walk has yet to produce from the
subtree rooted at `n` before this level is exhausted. -/
def Rep {T : Type} {A : Nat} (agg : Aggregate T A) (walker : T → Bool) :
    Nat → WalkState T → Node T → List T → Prop
  | 1, [(_, i)], n, L => L = sibYields agg walker 0 n.children i
  | lvl + 2, (pc, idx) :: rest, n, L =>
      (pc = none ∧ Ready rest ∧ L = subYields agg walker (lvl + 2) n) ∨
      (∃ c L1, pc = some c ∧ n.children.get? idx = some (some c) ∧
        walker (Node.itemVal agg (lvl + 1) c) = true ∧
        Rep agg walker (lvl + 1) rest c L1 ∧
        L = L1 ++ sibYields agg walker (lvl + 1) n.children (idx + 1))
  | _, _, _, _ => False

/-- The per-child contribution to a level's yields. -/
def childContrib {T : Type} {A : Nat} (agg : Aggregate T A) (walker : T → Bool)
    (lvl : Nat) : Option (Node T) → List T
  | none => []
  | some m =>
      if walker (Node.itemVal agg lvl m) then subYields agg walker lvl m else []

theorem sibYields_eq_nil {T : Type} {A : Nat} (agg : Aggregate T A)
    (walker : T → Bool) (lvl : Nat) (cs : List (Option (Node T))) (i : Nat)
    (h : cs.length ≤ i) : sibYields agg walker lvl cs i = [] := by
  unfold sibYields
  rw [List.drop_eq_nil_of_le h]
  rfl

theorem sibYields_cons {T : Type} {A : Nat} (agg : Aggregate T A)
    (walker : T → Bool) (lvl : Nat) (cs : List (Option (Node T))) (i : Nat)
    (c : Option (Node T)) (h : cs.get? i = some c) :
    sibYields agg walker lvl cs i =
      childContrib agg walker lvl c ++ sibYields agg walker lvl cs (i + 1) := by
  have hlt : i < cs.length := (List.get?_eq_some.1 h).1
  unfold sibYields
  rw [List.drop_eq_getElem_cons hlt]
  have hc : cs[i] = c := by
    have := List.get?_eq_getElem? cs i
    rw [h, List.getElem?_eq_getElem hlt] at this
    exact (Option.some.inj this.symm)
  rw [hc, List.map_cons, List.flatten_cons]
  rfl

theorem subYields_succ_eq {T : Type} {A : Nat} (agg : Aggregate T A)
    (walker : T → Bool) (lvl : Nat) (n : Node T) :
    subYields agg walker (lvl + 1) n = sibYields agg walker lvl n.children 0 := by
  rfl

theorem ready_rep {T : Type} {A : Nat} (agg : Aggregate T A) (walker : T → Bool) :
    ∀ (lvl : Nat) (s : WalkState T) (n : Node T), 1 ≤ lvl → s.length = lvl →
      Ready s → Rep agg walker lvl s n (subYields agg walker lvl n) := by
  intro lvl s n h1 hlen hready
  match lvl, s, h1 with
  | 1, [(pc, i)], _ =>
      have : i = 0 := hready
      subst this
      show subYields agg walker 1 n = sibYields agg walker 0 n.children 0
      exact subYields_succ_eq agg walker 0 n
  | lvl + 2, (pc, idx) :: rest, _ =>
      have hlen' : rest.length = lvl + 1 := by
        simpa using hlen
      have hr : pc = none ∧ Ready rest := by
        cases rest with
        | nil => simp at hlen'
        | cons r0 rs => exact hready
      exact Or.inl ⟨hr.1, hr.2, rfl⟩

end DuskMerkle

namespace DuskMerkle

theorem leafScan_spec {T : Type} {A : Nat} (agg : Aggregate T A)
    (walker : T → Bool) (cs : List (Option (Node T))) (hlen : cs.length = A) :
    ∀ (k i : Nat), A - i = k →
      (sibYields agg walker 0 cs i = [] → leafScan agg walker cs i = none) ∧
      (∀ x L', sibYields agg walker 0 cs i = x :: L' →
        ∃ j, leafScan agg walker cs i = some (x, j + 1) ∧ i ≤ j ∧
          sibYields agg walker 0 cs (j + 1) = L') := by
  intro k
  induction k with
  | zero =>
      intro i hk
      have hnil : sibYields agg walker 0 cs i = [] :=
        sibYields_eq_nil agg walker 0 cs i (by omega)
      constructor
      · intro _
        rw [leafScan.eq_def, dif_neg (by omega)]
      · intro x L' hx
        rw [hnil] at hx
        exact absurd hx (by simp)
  | succ k ihk =>
      intro i hk
      have hi : i < A := by omega
      have hilen : i < cs.length := by omega
      obtain ⟨c, hc⟩ : ∃ c, cs.get? i = some c := ⟨_, List.get?_eq_get hilen⟩
      have hcons := sibYields_cons agg walker 0 cs i c hc
      have ihk' := ihk (i + 1) (by omega)
      rw [leafScan.eq_def, dif_pos hi, hc]
      cases c with
      | none =>
          have hcontrib : childContrib agg walker 0 (none : Option (Node T)) = [] := rfl
          rw [hcons, hcontrib, List.nil_append]
          dsimp only
          constructor
          · intro h
            exact ihk'.1 h
          · intro x L' h
            obtain ⟨j, hj1, hj2, hj3⟩ := ihk'.2 x L' h
            exact ⟨j, hj1, by omega, hj3⟩
      | some leaf =>
          rw [hcons]
          dsimp only
          by_cases hw : walker (Node.itemVal agg 0 leaf) = true
          · rw [if_pos hw]
            have hcontrib : childContrib agg walker 0 (some leaf)
                = [Node.itemVal agg 0 leaf] := by
              unfold childContrib subYields
              dsimp only
              rw [if_pos hw]
            rw [hcontrib]
            constructor
            · intro h
              exact absurd h (by simp)
            · intro x L' h
              rw [List.cons_append] at h
              injection h with h1 h2
              subst h1
              refine ⟨i, rfl, le_refl i, ?_⟩
              rw [← h2]
              simp
          · rw [if_neg hw]
            have hcontrib : childContrib agg walker 0 (some leaf) = [] := by
              unfold childContrib
              dsimp only
              rw [if_neg hw]
            rw [hcontrib, List.nil_append]
            constructor
            · intro h
              exact ihk'.1 h
            · intro x L' h
              obtain ⟨j, hj1, hj2, hj3⟩ := ihk'.2 x L' h
              exact ⟨j, hj1, by omega, hj3⟩

theorem interiorScan_spec {T : Type} {A : Nat} (agg : Aggregate T A)
    (walker : T → Bool) (lvl : Nat) (cs : List (Option (Node T)))
    (hlen : cs.length = A) :
    ∀ (k i cur : Nat), A - i = k →
      (∃ j c, interiorScan agg walker lvl cs i cur = (j, some c) ∧ i ≤ j ∧
        cs.get? j = some (some c) ∧ walker (Node.itemVal agg lvl c) = true ∧
        sibYields agg walker lvl cs i =
          subYields agg walker lvl c ++ sibYields agg walker lvl cs (j + 1)) ∨
      ((interiorScan agg walker lvl cs i cur).2 = none ∧
        sibYields agg walker lvl cs i = []) := by
  intro k
  induction k with
  | zero =>
      intro i cur hk
      right
      rw [interiorScan.eq_def, dif_neg (by omega)]
      exact ⟨rfl, sibYields_eq_nil agg walker lvl cs i (by omega)⟩
  | succ k ihk =>
      intro i cur hk
      have hi : i < A := by omega
      have hilen : i < cs.length := by omega
      obtain ⟨c, hc⟩ : ∃ c, cs.get? i = some c := ⟨_, List.get?_eq_get hilen⟩
      have hcons := sibYields_cons agg walker lvl cs i c hc
      rw [interiorScan.eq_def, dif_pos hi, hc]
      cases c with
      | none =>
          dsimp only
          have hcontrib : childContrib agg walker lvl none = [] := rfl
          rcases ihk (i + 1) i (by omega) with ⟨j, c2, hj⟩ | ⟨h1, h2⟩
          · left
            exact ⟨j, c2, hj.1, by omega, hj.2.2.1, hj.2.2.2.1,
              by rw [hcons, hcontrib, List.nil_append]; exact hj.2.2.2.2⟩
          · right
            exact ⟨h1, by rw [hcons, hcontrib, List.nil_append]; exact h2⟩
      | some m =>
          dsimp only
          by_cases hw : walker (Node.itemVal agg lvl m) = true
          · rw [if_pos hw]
            left
            refine ⟨i, m, rfl, le_refl i, hc, hw, ?_⟩
            rw [hcons]
            unfold childContrib
            dsimp only
            rw [if_pos hw]
          · rw [if_neg hw]
            have hcontrib : childContrib agg walker lvl (some m) = [] := by
              unfold childContrib
              dsimp only
              rw [if_neg hw]
            rcases ihk (i + 1) i (by omega) with ⟨j, c2, hj⟩ | ⟨h1, h2⟩
            · left
              exact ⟨j, c2, hj.1, by omega, hj.2.2.1, hj.2.2.2.1,
                by rw [hcons, hcontrib, List.nil_append]; exact hj.2.2.2.2⟩
            · right
              exact ⟨h1, by rw [hcons, hcontrib, List.nil_append]; exact h2⟩

end DuskMerkle

namespace DuskMerkle

/-- The advance-step property at one level: `advance` consumes the head of
the represented pending list, or reports exhaustion returning a reset
state. -/
def StepProp {T : Type} {A : Nat} (agg : Aggregate T A) (walker : T → Bool)
    (lvl : Nat) : Prop :=
  ∀ (s : WalkState T) (n : Node T) (L : List T), s.length = lvl →
    Node.WF A lvl n → Rep agg walker lvl s n L →
    (advance agg walker lvl n s).2.length = lvl ∧
    (L = [] → (advance agg walker lvl n s).1 = none ∧
      Ready (advance agg walker lvl n s).2) ∧
    (∀ x L', L = x :: L' → (advance agg walker lvl n s).1 = some x ∧
      Rep agg walker lvl (advance agg walker lvl n s).2 n L')

theorem sibLoop_spec {T : Type} {A : Nat} (agg : Aggregate T A)
    (walker : T → Bool) (lvl : Nat) (h1 : 1 ≤ lvl)
    (hstep : StepProp agg walker lvl) (cs : List (Option (Node T)))
    (hlen : cs.length = A) (hch : ∀ m, some m ∈ cs → Node.WF A lvl m) :
    ∀ (k i : Nat) (rest : WalkState T), A - i = k → rest.length = lvl →
      Ready rest →
      (sibYields agg walker lvl cs i = [] →
        ∃ rest', sibLoop agg walker lvl cs rest i = (none, 0, none, rest') ∧
          Ready rest' ∧ rest'.length = lvl) ∧
      (∀ x L', sibYields agg walker lvl cs i = x :: L' →
        ∃ j c L1 rest', sibLoop agg walker lvl cs rest i = (some x, j, some c, rest') ∧
          cs.get? j = some (some c) ∧ walker (Node.itemVal agg lvl c) = true ∧
          Rep agg walker lvl rest' c L1 ∧ rest'.length = lvl ∧
          L' = L1 ++ sibYields agg walker lvl cs (j + 1)) := by
  intro k
  induction k with
  | zero =>
      intro i rest hk hrlen hready
      have hnil : sibYields agg walker lvl cs i = [] :=
        sibYields_eq_nil agg walker lvl cs i (by omega)
      constructor
      · intro _
        refine ⟨rest, ?_, hready, hrlen⟩
        rw [sibLoop.eq_def]
        dsimp only
        rw [dif_neg (by omega)]
      · intro x L' hx
        rw [hnil] at hx
        exact absurd hx (by simp)
  | succ k ihk =>
      intro i rest hk hrlen hready
      have hi : i < A := by omega
      have hilen : i < cs.length := by omega
      obtain ⟨c, hc⟩ : ∃ c, cs.get? i = some c := ⟨_, List.get?_eq_get hilen⟩
      have hcons := sibYields_cons agg walker lvl cs i c hc
      rw [sibLoop.eq_def]
      dsimp only
      rw [dif_pos hi, hc]
      cases c with
      | none =>
          dsimp only
          have hcontrib : childContrib agg walker lvl none = [] := rfl
          rw [hcons, hcontrib, List.nil_append]
          exact ihk (i + 1) rest (by omega) hrlen hready
      | some m =>
          dsimp only
          by_cases hw : walker (Node.itemVal agg lvl m) = true
          · rw [if_pos hw]
            have hrep0 : Rep agg walker lvl rest m (subYields agg walker lvl m) :=
              ready_rep agg walker lvl rest m h1 hrlen hready
            have hadv := hstep rest m (subYields agg walker lvl m) hrlen
              (hch m (List.get?_mem hc)) hrep0
            have hcontrib : childContrib agg walker lvl (some m)
                = subYields agg walker lvl m := by
              unfold childContrib
              dsimp only
              rw [if_pos hw]
            cases hsub : subYields agg walker lvl m with
            | nil =>
                obtain ⟨hnone, hready2⟩ := hadv.2.1 hsub
                have heq : advance agg walker lvl m rest =
                    (none, (advance agg walker lvl m rest).2) :=
                  Prod.ext hnone rfl
                rw [heq]
                dsimp only
                rw [hcons, hcontrib, hsub, List.nil_append]
                exact ihk (i + 1) _ (by omega) hadv.1 hready2
            | cons y L1 =>
                obtain ⟨hsome, hrep2⟩ := hadv.2.2 y L1 hsub
                have heq : advance agg walker lvl m rest =
                    (some y, (advance agg walker lvl m rest).2) :=
                  Prod.ext hsome rfl
                rw [heq]
                dsimp only
                rw [hcons, hcontrib, hsub]
                constructor
                · intro h
                  exact absurd h (by simp)
                · intro x L' h
                  rw [List.cons_append] at h
                  injection h with h1 h2
                  subst h1
                  exact ⟨i, m, L1, _, rfl, hc, hw, hrep2, hadv.1, h2.symm⟩
          · rw [if_neg hw]
            have hcontrib : childContrib agg walker lvl (some m) = [] := by
              unfold childContrib
              dsimp only
              rw [if_neg hw]
            rw [hcons, hcontrib, List.nil_append]
            exact ihk (i + 1) rest (by omega) hrlen hready

end DuskMerkle

namespace DuskMerkle

theorem ready_cons {T : Type} (pc : Option (Node T)) (i : Nat)
    (rest : WalkState T) (hne : rest ≠ []) (hpc : pc = none)
    (h : Ready rest) : Ready ((pc, i) :: rest) := by
  cases rest with
  | nil => exact absurd rfl hne
  | cons q rs => exact ⟨hpc, h⟩

theorem advance_step {T : Type} {A : Nat} (agg : Aggregate T A)
    (walker : T → Bool) (hA : 0 < A) :
    ∀ lvl, StepProp agg walker lvl := by
  intro lvl
  induction lvl using Nat.strong_induction_on with
  | _ lvl ih =>
  match lvl with
  | 0 =>
      intro s n L hlen hwf hrep
      rcases s with - | ⟨⟨pc, ix⟩, rest⟩
      · exact hrep.elim
      · simp at hlen
  | 1 =>
      intro s n L hlen hwf hrep
      rcases s with - | ⟨⟨pc, idx⟩, - | ⟨q, rest'⟩⟩
      · simp at hlen
      rotate_left
      · simp at hlen
      have hL : L = sibYields agg walker 0 n.children idx := hrep
      subst hL
      have hlenc : n.children.length = A := hwf.children_length
      have hadv : advance agg walker 1 n [(pc, idx)] =
          (match leafScan agg walker n.children idx with
           | some (v, i2) => (some v, [(pc, i2)])
           | none => (none, [(pc, 0)])) := by
        rw [advance.eq_2]
        dsimp only [List.headD, List.tail]
      have hspec := leafScan_spec agg walker n.children hlenc (A - idx) idx rfl
      cases hsib : sibYields agg walker 0 n.children idx with
      | nil =>
          rw [hspec.1 hsib] at hadv
          rw [hadv]
          refine ⟨rfl, fun _ => ⟨rfl, rfl⟩, ?_⟩
          intro x L' h
          exact absurd h (by simp)
      | cons x0 L0 =>
          obtain ⟨j, hj1, hj2, hj3⟩ := hspec.2 x0 L0 hsib
          rw [hj1] at hadv
          rw [hadv]
          refine ⟨rfl, ?_, ?_⟩
          · intro h
            exact absurd h (by simp)
          · intro x L' h
            injection h with h1 h2
            subst h1
            subst h2
            exact ⟨rfl, hj3.symm⟩
  | lvl + 2 =>
      intro s n L hlen hwf hrep
      rcases s with - | ⟨⟨pc, idx⟩, rest⟩
      · simp at hlen
      have hrlen : rest.length = lvl + 1 := by simpa using hlen
      have hrne : rest ≠ [] := by
        intro h
        rw [h] at hrlen
        simp at hrlen
      have hlenc : n.children.length = A := hwf.children_length
      have hch : ∀ m, some m ∈ n.children → Node.WF A (lvl + 1) m :=
        fun m hm => ((Node.WF_succ.1 hwf).2 m hm).1
      have hstep1 : StepProp agg walker (lvl + 1) := ih (lvl + 1) (by omega)
      rcases hrep with ⟨hpc, hready, hL⟩ | ⟨c, L1, hpc, hgetc, hwc, hrepc, hL⟩
      · -- path unset: initial scan
        subst hpc
        subst hL
        have hadv : advance agg walker (lvl + 2) n ((none, idx) :: rest) =
            (match interiorScan agg walker (lvl + 1) n.children 0 idx with
             | (idx1, none) => (none, (none, idx1) :: rest)
             | (idx1, some c) =>
                 match advance agg walker (lvl + 1) c rest with
                 | (some v, rest2) => (some v, (some c, idx1) :: rest2)
                 | (none, rest2) =>
                     match sibLoop agg walker (lvl + 1) n.children rest2 (idx1 + 1) with
                     | (some v, i2, c2, rest3) => (some v, (c2, i2) :: rest3)
                     | (none, _, _, rest3) => (none, (none, 0) :: rest3)) := by
          rw [advance.eq_3]
          dsimp only [List.headD, List.tail]
        have hLeq : subYields agg walker (lvl + 2) n
            = sibYields agg walker (lvl + 1) n.children 0 :=
          subYields_succ_eq agg walker (lvl + 1) n
        rcases interiorScan_spec agg walker (lvl + 1) n.children hlenc (A - 0) 0 idx rfl with
          ⟨j, c, hscan, hj0, hgetc, hwc, hsibeq⟩ | ⟨hsnone, hsibnil⟩
        · rw [hscan] at hadv
          dsimp only at hadv
          have hrep0 : Rep agg walker (lvl + 1) rest c (subYields agg walker (lvl + 1) c) :=
            ready_rep agg walker (lvl + 1) rest c (by omega) hrlen hready
          have hadvc := hstep1 rest c _ hrlen (hch c (List.get?_mem hgetc)) hrep0
          cases hsubc : subYields agg walker (lvl + 1) c with
          | nil =>
              obtain ⟨hnone, hreadys2⟩ := hadvc.2.1 hsubc
              have heqc : advance agg walker (lvl + 1) c rest =
                  (none, (advance agg walker (lvl + 1) c rest).2) :=
                Prod.ext hnone rfl
              rw [heqc] at hadv
              dsimp only at hadv
              have hsl := sibLoop_spec agg walker (lvl + 1) (by omega) hstep1
                n.children hlenc hch (A - (j + 1)) (j + 1)
                (advance agg walker (lvl + 1) c rest).2 rfl hadvc.1 hreadys2
              have hLeq2 : subYields agg walker (lvl + 2) n
                  = sibYields agg walker (lvl + 1) n.children (j + 1) := by
                rw [hLeq, hsibeq, hsubc, List.nil_append]
              cases hsib2 : sibYields agg walker (lvl + 1) n.children (j + 1) with
              | nil =>
                  obtain ⟨rest3, hloop, hready3, hlen3⟩ := hsl.1 hsib2
                  rw [hloop] at hadv
                  dsimp only at hadv
                  rw [hLeq2, hsib2, hadv]
                  refine ⟨by simp [hlen3], fun _ => ⟨rfl, ?_⟩, ?_⟩
                  · exact ready_cons none 0 rest3 (by
                      intro h
                      rw [h] at hlen3
                      simp at hlen3) rfl hready3
                  · intro x L' h
                    exact absurd h (by simp)
              | cons x L' =>
                  obtain ⟨j2, c2, L1', rest3, hloop, hget2, hw2, hrep3, hlen3, hL'⟩ :=
                    hsl.2 x L' hsib2
                  rw [hloop] at hadv
                  dsimp only at hadv
                  rw [hLeq2, hsib2, hadv]
                  refine ⟨by simp [hlen3], ?_, ?_⟩
                  · intro h
                    exact absurd h (by simp)
                  · intro x2 L2 h
                    injection h with h1 h2
                    subst h1
                    subst h2
                    exact ⟨rfl, Or.inr ⟨c2, L1', rfl, hget2, hw2, hrep3, hL'⟩⟩
          | cons y L1 =>
              obtain ⟨hsome, hrep2⟩ := hadvc.2.2 y L1 hsubc
              have heqc : advance agg walker (lvl + 1) c rest =
                  (some y, (advance agg walker (lvl + 1) c rest).2) :=
                Prod.ext hsome rfl
              rw [heqc] at hadv
              dsimp only at hadv
              have hLeq2 : subYields agg walker (lvl + 2) n
                  = y :: (L1 ++ sibYields agg walker (lvl + 1) n.children (j + 1)) := by
                rw [hLeq, hsibeq, hsubc]
                rfl
              rw [hLeq2, hadv]
              refine ⟨by simp [hadvc.1], ?_, ?_⟩
              · intro h
                exact absurd h (by simp)
              · intro x2 L2 h
                injection h with h1 h2
                subst h1
                subst h2
                exact ⟨rfl, Or.inr ⟨c, L1, rfl, hgetc, hwc, hrep2, rfl⟩⟩
        · -- no qualifying child at all
          have heqs : interiorScan agg walker (lvl + 1) n.children 0 idx =
              ((interiorScan agg walker (lvl + 1) n.children 0 idx).1, none) :=
            Prod.ext rfl hsnone
          rw [heqs] at hadv
          dsimp only at hadv
          have hLnil : subYields agg walker (lvl + 2) n = [] := by
            rw [hLeq]
            exact hsibnil
          rw [hLnil, hadv]
          refine ⟨by simp [hrlen], fun _ => ⟨rfl, ?_⟩, ?_⟩
          · exact ready_cons none _ rest hrne rfl hready
          · intro x L' h
            exact absurd h (by simp)
      · -- path set: continue the descended-into child
        subst hpc
        have hadv : advance agg walker (lvl + 2) n ((some c, idx) :: rest) =
            (match advance agg walker (lvl + 1) c rest with
             | (some v, rest2) => (some v, (some c, idx) :: rest2)
             | (none, rest2) =>
                 match sibLoop agg walker (lvl + 1) n.children rest2 (idx + 1) with
                 | (some v, i2, c2, rest3) => (some v, (c2, i2) :: rest3)
                 | (none, _, _, rest3) => (none, (none, 0) :: rest3)) := by
          rw [advance.eq_3]
          dsimp only [List.headD, List.tail]
        have hadvc := hstep1 rest c L1 hrlen (hch c (List.get?_mem hgetc)) hrepc
        cases hL1 : L1 with
        | cons y L1' =>
            subst hL1
            obtain ⟨hsome, hrep2⟩ := hadvc.2.2 y L1' rfl
            have heqc : advance agg walker (lvl + 1) c rest =
                (some y, (advance agg walker (lvl + 1) c rest).2) :=
              Prod.ext hsome rfl
            rw [heqc] at hadv
            dsimp only at hadv
            rw [hL, hadv]
            refine ⟨by simp [hadvc.1], ?_, ?_⟩
            · intro h
              exact absurd h (by simp)
            · intro x2 L2 h
              rw [List.cons_append] at h
              injection h with h1 h2
              subst h1
              subst h2
              exact ⟨rfl, Or.inr ⟨c, L1', rfl, hgetc, hwc, hrep2, rfl⟩⟩
        | nil =>
            subst hL1
            obtain ⟨hnone, hreadys2⟩ := hadvc.2.1 rfl
            have heqc : advance agg walker (lvl + 1) c rest =
                (none, (advance agg walker (lvl + 1) c rest).2) :=
              Prod.ext hnone rfl
            rw [heqc] at hadv
            dsimp only at hadv
            have hsl := sibLoop_spec agg walker (lvl + 1) (by omega) hstep1
              n.children hlenc hch (A - (idx + 1)) (idx + 1)
              (advance agg walker (lvl + 1) c rest).2 rfl hadvc.1 hreadys2
            have hLeq2 : L = sibYields agg walker (lvl + 1) n.children (idx + 1) := by
              rw [hL, List.nil_append]
            cases hsib2 : sibYields agg walker (lvl + 1) n.children (idx + 1) with
            | nil =>
                obtain ⟨rest3, hloop, hready3, hlen3⟩ := hsl.1 hsib2
                rw [hloop] at hadv
                dsimp only at hadv
                rw [hLeq2, hsib2, hadv]
                refine ⟨by simp [hlen3], fun _ => ⟨rfl, ?_⟩, ?_⟩
                · exact ready_cons none 0 rest3 (by
                    intro h
                    rw [h] at hlen3
                    simp at hlen3) rfl hready3
                · intro x L' h
                  exact absurd h (by simp)
            | cons x L' =>
                obtain ⟨j2, c2, L1', rest3, hloop, hget2, hw2, hrep3, hlen3, hL'⟩ :=
                  hsl.2 x L' hsib2
                rw [hloop] at hadv
                dsimp only at hadv
                rw [hLeq2, hsib2, hadv]
                refine ⟨by simp [hlen3], ?_, ?_⟩
                · intro h
                  exact absurd h (by simp)
                · intro x2 L2 h
                  injection h with h1 h2
                  subst h1
                  subst h2
                  exact ⟨rfl, Or.inr ⟨c2, L1', rfl, hget2, hw2, hrep3, hL'⟩⟩

end DuskMerkle

namespace DuskMerkle

theorem flat_len_le {T : Type} {A : Nat} (agg : Aggregate T A)
    (walker : T → Bool) (lvl : Nat)
    (ihm : ∀ m : Node T, Node.WF A lvl m →
      (subYields agg walker lvl m).length ≤ (Node.leafPositions A lvl m).length) :
    ∀ (cs : List (Option (Node T))) (k : Nat),
      (∀ m, some m ∈ cs → Node.WF A lvl m) →
      ((cs.map fun s =>
        match s with
        | none => ([] : List T)
        | some m =>
            if walker (Node.itemVal agg lvl m) then subYields agg walker lvl m
            else []).flatten).length ≤
      (((List.enumFrom k cs).map fun ic =>
        match ic.2 with
        | none => ([] : List Nat)
        | some m =>
            (Node.leafPositions A lvl m).map fun q =>
              ic.1 * Node.capacity A lvl + q).flatten).length := by
  intro cs
  induction cs with
  | nil =>
      intro k _
      exact le_rfl
  | cons c cs ihc =>
      intro k hchm
      have he : List.enumFrom k (c :: cs) = (k, c) :: List.enumFrom (k + 1) cs := rfl
      rw [he]
      simp only [List.map_cons, List.flatten_cons, List.length_append]
      have h2 := ihc (k + 1) (fun m hm => hchm m (List.mem_cons_of_mem _ hm))
      have h1 : ((match c with
          | none => ([] : List T)
          | some m =>
              if walker (Node.itemVal agg lvl m) then subYields agg walker lvl m
              else []).length) ≤
          ((match c with
          | none => ([] : List Nat)
          | some m =>
              (Node.leafPositions A lvl m).map fun q =>
                k * Node.capacity A lvl + q).length) := by
        cases c with
        | none => exact le_rfl
        | some m =>
            dsimp only
            rw [List.length_map]
            by_cases hw : walker (Node.itemVal agg lvl m) = true
            · rw [if_pos hw]
              exact ihm m (hchm m (List.mem_cons_self _ _))
            · rw [if_neg hw]
              exact Nat.zero_le _
      exact Nat.add_le_add h1 h2

theorem subYields_length_le {T : Type} {A : Nat} (agg : Aggregate T A)
    (walker : T → Bool) :
    ∀ (lvl : Nat) (n : Node T), Node.WF A lvl n →
      (subYields agg walker lvl n).length ≤
        (Node.leafPositions A lvl n).length := by
  intro lvl
  induction lvl with
  | zero =>
      intro n _
      exact le_rfl
  | succ lvl ih =>
      intro n hwf
      have hch : ∀ m, some m ∈ n.children → Node.WF A lvl m :=
        fun m hm => ((Node.WF_succ.1 hwf).2 m hm).1
      exact flat_len_le agg walker lvl ih n.children 0 hch

theorem ready_replicate {T : Type} :
    ∀ H : Nat, Ready (List.replicate H ((none : Option (Node T)), 0)) := by
  intro H
  induction H with
  | zero => trivial
  | succ H ihH =>
      cases H with
      | zero => exact rfl
      | succ H' => exact ⟨rfl, ihH⟩

theorem Walk.next_eq {T : Type} {A : Nat} (agg : Aggregate T A)
    (walker : T → Bool) (w : Walk T) :
    Walk.next agg walker w =
      ((advance agg walker w.state.length w.root w.state).1,
       ⟨w.root, (advance agg walker w.state.length w.root w.state).2⟩) := rfl

theorem Walk.nexts_succ {T : Type} {A : Nat} (agg : Aggregate T A)
    (walker : T → Bool) (k : Nat) (w : Walk T) :
    Walk.nexts agg walker (k + 1) w =
      (Walk.next agg walker w).1 ::
        Walk.nexts agg walker k (Walk.next agg walker w).2 := rfl

theorem nexts_bound {T : Type} {A : Nat} (agg : Aggregate T A)
    (walker : T → Bool) (hA : 0 < A) :
    ∀ (k H : Nat) (root : Node T) (s : WalkState T) (L : List T),
      s.length = H → Node.WF A H root → Rep agg walker H s root L →
      ((Walk.nexts agg walker k ⟨root, s⟩).takeWhile Option.isSome).length ≤
        L.length := by
  intro k
  induction k with
  | zero =>
      intro H root s L _ _ _
      exact Nat.zero_le _
  | succ k ihk =>
      intro H root s L hlen hwf hrep
      have hstep := advance_step agg walker hA H s root L hlen hwf hrep
      rw [Walk.nexts_succ, Walk.next_eq]
      dsimp only
      rw [hlen]
      cases hL : L with
      | nil =>
          obtain ⟨hr, -⟩ := hstep.2.1 hL
          rw [hr]
          simp
      | cons x L' =>
          obtain ⟨hr, hrep'⟩ := hstep.2.2 x L' hL
          rw [hr]
          simp only [List.takeWhile_cons, Option.isSome_some,
            eq_self_iff_true, if_true, List.length_cons]
          have hrec := ihk H root (advance agg walker H root s).2 L'
            hstep.1 hwf hrep'
          omega

end DuskMerkle

namespace DuskMerkle

/-- C3 (amended): the iterator is finite per pass — for every reachable tree,
every walker predicate and every number `k` of successive `next()` calls on a
fresh walk, the items yielded before the first `None` number at most `len()`.
The original claim's further assertion — that once `next()` has returned
`None` every subsequent `next()` also returns `None`, a fresh `walk()` being
required to traverse again — does not hold: `Walk::advance` resets the
per-level path and cursor state on exhaustion, so the same walk restarts and
may yield items again (see the accompanying counterexample). -/
theorem C3_walk_pass_bound {T : Type} {A : Nat} (agg : Aggregate T A)
    (walker : T → Bool) (H : Nat) (hA : 0 < A) (hH : 0 < H)
    (t : Tree T) (ht : Tree.Reachable agg H t) (k : Nat) :
    ((Walk.nexts agg walker k (Tree.walk H t)).takeWhile Option.isSome).length ≤
      Tree.len t := by
  obtain ⟨hwf, -, hpos⟩ := Tree.reachable_inv agg H hA hH ht
  have hnd := Node.leafPositions_nodup hA H t.root hwf
  have hlen : Tree.len t = (Node.leafPositions A H t.root).length := by
    unfold Tree.len
    rw [← hpos]
    exact List.toFinset_card_of_nodup hnd
  have hready : Ready (List.replicate H ((none : Option (Node T)), 0)) :=
    ready_replicate H
  have hrep := ready_rep agg walker H (List.replicate H (none, 0)) t.root hH
    (by simp) hready
  have hb := nexts_bound agg walker hA k H t.root (List.replicate H (none, 0))
    (subYields agg walker H t.root) (by simp) hwf hrep
  have hc := subYields_length_le agg walker H t.root hwf
  have hw : Tree.walk H t = (⟨t.root, List.replicate H (none, 0)⟩ : Walk T) := rfl
  rw [hw]
  omega

theorem C3_walk_pass_bound_witness :
    0 < 1 ∧ Tree.Reachable sumAgg1 1 (Tree.new Nat 1) ∧
    ((Walk.nexts sumAgg1 allWalker 2 (Tree.walk 1 (Tree.new Nat 1))).takeWhile
      Option.isSome).length ≤ Tree.len (Tree.new Nat 1) :=
  ⟨Nat.one_pos, Tree.Reachable.base,
    C3_walk_pass_bound sumAgg1 allWalker 1 Nat.one_pos Nat.one_pos
      (Tree.new Nat 1) Tree.Reachable.base 2⟩

end DuskMerkle
